import Mathlib

/-!
Formal model of the traffic-signal arbitration core of this repository
(`priority_utils.py`, `control.py`, `simulation.py`).

Modelling conventions:
* Python dictionaries appear as association lists in iteration (insertion)
  order, since Python dict iteration follows insertion order.
* Python numbers (including the float deadlines, which the program only ever
  creates from integers) are modelled as `Int`.
* Python truthiness of the optional `best_edge` string is modelled
  explicitly: `None` and the empty string are falsy.
* Each `traci` boundary call is represented by the value it returns, or by
  the fact that it raised, so the exception flow of the Python functions is
  reproduced faithfully: `except traci.TraCIException` around the deadline
  lookup in `edf_pick_edge` does not catch the `ValueError` that
  `float(d_str)` raises on a malformed non-empty string, while the bare
  `except Exception` in `check_missed_deadlines` catches everything.
* Fallible Python functions are embedded with result type `Except PyErr _`.
-/

deriving instance DecidableEq for Except

namespace RTES

/-- Result of `traci.vehicle.getTypeID(vid)` for one queued vehicle, as seen
by `get_highest_priority_vehicle_type`: either the type label, or the fact
that the call raised (swallowed there by a bare `except`). -/
inductive TyLookup where
  | fail : TyLookup
  | ok (vt : String) : TyLookup
deriving DecidableEq

/-- `PRIORITY_MAP` from `priority_utils.py`, with the `.get(vt, 0)` default
for unknown type labels. -/
def PRIORITY_MAP (vt : String) : Int :=
  if vt = "HV" then 3 else if vt = "MV" then 2 else if vt = "LV" then 1 else 0

/-- The scanning loop of `get_highest_priority_vehicle_type`
(`priority_utils.py` lines 11-23): keeps the first type whose priority value
strictly exceeds the running maximum, which starts at 0; vehicles whose
`getTypeID` raised are skipped. -/
def ghpvLoop : List TyLookup → Option String → Int → Option String
  | [], highest, _ => highest
  | v :: vs, highest, highestVal =>
    match v with
    | .fail => ghpvLoop vs highest highestVal
    | .ok vt =>
      if PRIORITY_MAP vt > highestVal then ghpvLoop vs (some vt) (PRIORITY_MAP vt)
      else ghpvLoop vs highest highestVal

/-- `get_highest_priority_vehicle_type` from `priority_utils.py`. -/
def get_highest_priority_vehicle_type (vs : List TyLookup) : Option String :=
  ghpvLoop vs none 0

/-- `PRIORITY_MAP.get(veh_type, 0)` applied to the optional result of
`get_highest_priority_vehicle_type` (a Python `None` is not a key). -/
def prioOf : Option String → Int
  | none => 0
  | some vt => PRIORITY_MAP vt

/-- The score `prio_val * 100 + len(vehicles)` computed for one queue in
`fp_pick_edge` (`control.py` line 33). -/
def fpScore (vs : List TyLookup) : Int :=
  prioOf (get_highest_priority_vehicle_type vs) * 100 + vs.length

/-- The one kind of exception the modelled code can raise and not catch:
Python `ValueError`, raised by `float()` on a malformed non-empty string, by
`max()` on an empty sequence, and explicitly by `run_simulation` for an
unknown control method. -/
inductive PyErr where
  | valueError : PyErr
deriving DecidableEq

/-- The scan performed by Python `max(edge_vehicles, key=lambda e:
len(edge_vehicles[e]))`: keeps the first key whose length strictly exceeds
the running maximum. -/
def maxByLenLoop (accE : String) (accLen : Nat) : List (String × Nat) → String
  | [] => accE
  | (e, n) :: rest =>
    if n > accLen then maxByLenLoop e n rest else maxByLenLoop accE accLen rest

/-- `max(edge_vehicles, key=lambda e: len(edge_vehicles[e]))`, the fallback
expression of both selectors; raises `ValueError` on an empty mapping. -/
def maxByLen {α : Type} : List (String × List α) → Except PyErr String
  | [] => .error .valueError
  | (e, vs) :: rest => .ok (maxByLenLoop e vs.length (rest.map (fun p => (p.1, p.2.length))))

/-- A queue snapshot as consumed by `fp_pick_edge`: each edge id paired with
the per-vehicle results of the `getTypeID` lookups. -/
abbrev EdgeMapFP := List (String × List TyLookup)

/-- The scoring loop of `fp_pick_edge` (`control.py` lines 29-36):
`best_score` starts at -1, updated on strictly greater scores only. -/
def fpLoop : EdgeMapFP → Option String → Int → Option String
  | [], best, _ => best
  | (e, vs) :: rest, best, bestScore =>
    if fpScore vs > bestScore then fpLoop rest (some e) (fpScore vs)
    else fpLoop rest best bestScore

/-- `fp_pick_edge` from `control.py` lines 20-41.  The final
`if not best_edge:` test is Python truthiness: it fires when `best_edge` is
still `None` (empty mapping) and also when the best edge id is the empty
string, in which case the largest-raw-queue-length fallback runs. -/
def fp_pick_edge (ev : EdgeMapFP) : Except PyErr String :=
  match fpLoop ev none (-1) with
  | none => maxByLen ev
  | some e => if e = "" then maxByLen ev else .ok e

/-- Result of `traci.vehicle.getParameter(vid, "deadline")` followed by the
`if d_str:` / `float(d_str)` steps of `edf_pick_edge`, for one vehicle:
the lookup raised `TraCIException` (`fail`), returned the falsy empty
string (`empty`), returned a non-empty string that `float()` cannot parse
(`bad`), or returned a string parsing to the number `d` (`val d`). -/
inductive DlLookup where
  | fail : DlLookup
  | empty : DlLookup
  | bad : DlLookup
  | val (d : Int) : DlLookup
deriving DecidableEq

/-- The inner loop of `edf_pick_edge` (`control.py` lines 55-65) computing
`min_deadline` over one queue.  `fail` is skipped because the
`except traci.TraCIException` clause catches it; `empty` is skipped by
`if d_str:`; `bad` raises `ValueError` from `float(d_str)`, which the
clause does not catch, aborting the whole selection. -/
def minRemainLoop (t : Int) : List DlLookup → Option Int → Except PyErr (Option Int)
  | [], acc => .ok acc
  | v :: vs, acc =>
    match v with
    | .fail => minRemainLoop t vs acc
    | .empty => minRemainLoop t vs acc
    | .bad => .error .valueError
    | .val d =>
      match acc with
      | none => minRemainLoop t vs (some (d - t))
      | some m => if d - t < m then minRemainLoop t vs (some (d - t)) else minRemainLoop t vs (some m)

/-- A queue snapshot as consumed by `edf_pick_edge`: each edge id paired
with the per-vehicle results of the deadline lookups. -/
abbrev EdgeMapEDF := List (String × List DlLookup)

/-- The outer loop of `edf_pick_edge` (`control.py` lines 54-69):
`best_remain` starts at `float('inf')` (modelled as `none`), updated on
strictly smaller minima only. -/
def edfLoop (t : Int) : EdgeMapEDF → Option String → Option Int → Except PyErr (Option String)
  | [], best, _ => .ok best
  | (e, vs) :: rest, best, bestRemain =>
    match minRemainLoop t vs none with
    | .error err => .error err
    | .ok none => edfLoop t rest best bestRemain
    | .ok (some m) =>
      match bestRemain with
      | none => edfLoop t rest (some e) (some m)
      | some b => if m < b then edfLoop t rest (some e) (some m) else edfLoop t rest best bestRemain

/-- `edf_pick_edge` from `control.py` lines 46-75, with the same Python
truthiness on `if not best_edge:` as `fp_pick_edge`. -/
def edf_pick_edge (ev : EdgeMapEDF) (t : Int) : Except PyErr String :=
  match edfLoop t ev none none with
  | .error err => .error err
  | .ok none => maxByLen ev
  | .ok (some e) => if e = "" then maxByLen ev else .ok e

/-- `PHASE_MAP.get(edge, DEFAULT_PHASE)` wrapped by `get_phase_for_edge`
(`control.py` lines 5-15). -/
def get_phase_for_edge (e : String) : Nat :=
  if e = "E0" then 0 else if e = "-E2" then 0 else
  if e = "-E1" then 2 else if e = "-E3" then 2 else 0

/-- Exception-free restatement of `minRemainLoop`, meaningful on inputs with
no `bad` deadline string (where it agrees with `minRemainLoop`); on a `bad`
entry it skips instead of raising. -/
def pyMinRemain (t : Int) : List DlLookup → Option Int → Option Int
  | [], acc => acc
  | v :: vs, acc =>
    match v with
    | .fail => pyMinRemain t vs acc
    | .empty => pyMinRemain t vs acc
    | .bad => pyMinRemain t vs acc
    | .val d =>
      match acc with
      | none => pyMinRemain t vs (some (d - t))
      | some m => if d - t < m then pyMinRemain t vs (some (d - t)) else pyMinRemain t vs (some m)

/-- The remaining times `deadline - current_time` of the deadline-bearing
vehicles of one queue, in queue order. -/
def remainsOf (t : Int) (vs : List DlLookup) : List Int :=
  vs.filterMap (fun v => match v with | .val d => some (d - t) | _ => none)

/-- Exception-free restatement of the outer loop of `edf_pick_edge`, with
`(best_edge, best_remain)` bundled into one optional pair; agrees with
`edfLoop` on inputs with no `bad` deadline string. -/
def edfLoopOk (t : Int) : EdgeMapEDF → Option (String × Int) → Option (String × Int)
  | [], acc => acc
  | (e, vs) :: rest, acc =>
    match pyMinRemain t vs none, acc with
    | none, _ => edfLoopOk t rest acc
    | some m, none => edfLoopOk t rest (some (e, m))
    | some m, some (e0, m0) =>
      if m < m0 then edfLoopOk t rest (some (e, m)) else edfLoopOk t rest (some (e0, m0))

/-! Model of `simulation.py`.  The external SUMO engine is represented by a
store of admitted vehicles plus an `Oracle` of boundary outcomes: which
vehicle type `weighted_priority_choice` draws (it always returns one of
"HV"/"MV"/"LV"), whether `traci.vehicle.add` and `setParameter` succeed,
which admitted vehicles are currently live, and which live vehicles stand
on which incoming edge.  `traci.vehicle.add` also fails on a duplicate
vehicle id, which the model checks explicitly. -/

/-- The three vehicle type labels `weighted_priority_choice` can return. -/
inductive VType where
  | HV : VType
  | MV : VType
  | LV : VType
deriving DecidableEq

/-- The type label string carried by the engine for an admitted vehicle,
returned by `traci.vehicle.getTypeID`. -/
def VType.str : VType → String
  | .HV => "HV"
  | .MV => "MV"
  | .LV => "LV"

/-- The per-class deadline offset assigned in `spawn_vehicles`
(`simulation.py` lines 109-114). -/
def VType.offset : VType → Int
  | .HV => 60
  | .MV => 80
  | .LV => 100

/-- A vehicle admitted into the engine by `spawn_vehicles`: its id, its
type, and its "deadline" parameter (`none` when `setParameter` failed). -/
structure EngVeh where
  vid : String
  vt : VType
  dl : Option Int
deriving DecidableEq

/-- One `{"spawned": _, "missed": _}` entry of `priority_counts`. -/
structure ClassCount where
  spawned : Nat
  missed : Nat
deriving DecidableEq

/-- The `priority_counts` dictionary of `run_simulation`
(`simulation.py` lines 45-49). -/
structure Counts where
  hv : ClassCount
  mv : ClassCount
  lv : ClassCount
deriving DecidableEq

/-- The `vtype in priority_counts` membership test of
`check_missed_deadlines`. -/
def Counts.inKeys (vt : String) : Bool :=
  decide (vt = "HV") || decide (vt = "MV") || decide (vt = "LV")

/-- `priority_counts[vtype]["spawned"] += 1`. -/
def Counts.incSpawned (c : Counts) (vt : String) : Counts :=
  if vt = "HV" then ⟨⟨c.hv.spawned + 1, c.hv.missed⟩, c.mv, c.lv⟩
  else if vt = "MV" then ⟨c.hv, ⟨c.mv.spawned + 1, c.mv.missed⟩, c.lv⟩
  else if vt = "LV" then ⟨c.hv, c.mv, ⟨c.lv.spawned + 1, c.lv.missed⟩⟩
  else c

/-- `priority_counts[vtype]["missed"] += 1`. -/
def Counts.incMissed (c : Counts) (vt : String) : Counts :=
  if vt = "HV" then ⟨⟨c.hv.spawned, c.hv.missed + 1⟩, c.mv, c.lv⟩
  else if vt = "MV" then ⟨c.hv, ⟨c.mv.spawned, c.mv.missed + 1⟩, c.lv⟩
  else if vt = "LV" then ⟨c.hv, c.mv, ⟨c.lv.spawned, c.lv.missed + 1⟩⟩
  else c

/-- Spawned counter of one class. -/
def Counts.spawnedOf (c : Counts) : VType → Nat
  | .HV => c.hv.spawned
  | .MV => c.mv.spawned
  | .LV => c.lv.spawned

/-- Missed counter of one class. -/
def Counts.missedOf (c : Counts) : VType → Nat
  | .HV => c.hv.missed
  | .MV => c.mv.missed
  | .LV => c.lv.missed

/-- Sum of the three missed counters. -/
def Counts.totalMissed (c : Counts) : Nat :=
  c.hv.missed + c.mv.missed + c.lv.missed

/-- One vehicle as observed by `check_missed_deadlines`: its id from
`getIDList`, the outcome of its deadline lookup and of its `getTypeID`
lookup. -/
structure LiveVeh where
  vid : String
  dl : DlLookup
  ty : TyLookup
deriving DecidableEq

/-- `check_missed_deadlines` from `simulation.py` lines 133-151.  A vehicle
already in `already_missed` is skipped; the bare `except Exception` catches
failed lookups and `float()` parse failures alike; on `current_time > dl`
the missed counter of the vehicle's type is incremented when the type is a
key of `priority_counts`, and the vehicle id is recorded as missed either
way (unless `getTypeID` itself raised, which skips the recording too). -/
def check_missed_deadlines (t : Int) : List LiveVeh → Counts → List String → Counts × List String
  | [], c, am => (c, am)
  | v :: vs, c, am =>
    if v.vid ∈ am then check_missed_deadlines t vs c am
    else
      match v.dl with
      | .fail => check_missed_deadlines t vs c am
      | .empty => check_missed_deadlines t vs c am
      | .bad => check_missed_deadlines t vs c am
      | .val d =>
        if t > d then
          match v.ty with
          | .fail => check_missed_deadlines t vs c am
          | .ok vt =>
            check_missed_deadlines t vs (if Counts.inKeys vt then c.incMissed vt else c)
              (am ++ [v.vid])
        else check_missed_deadlines t vs c am

/-- The vehicle ids newly recorded as missed by one call of
`check_missed_deadlines`, in recording order. -/
def cmAdds (t : Int) : List String → List LiveVeh → List String
  | _, [] => []
  | am, v :: vs =>
    if v.vid ∈ am then cmAdds t am vs
    else
      match v.dl with
      | .val d =>
        if t > d then
          match v.ty with
          | .fail => cmAdds t am vs
          | .ok _ => v.vid :: cmAdds t (am ++ [v.vid]) vs
        else cmAdds t am vs
      | _ => cmAdds t am vs

/-- A sequence of `check_missed_deadlines` calls, one per tick: each entry
gives the tick's `current_time` and live-vehicle observations. -/
def cmRun : List (Int × List LiveVeh) → Counts → List String → Counts × List String
  | [], c, am => (c, am)
  | (t, live) :: calls, c, am =>
    let r := check_missed_deadlines t live c am
    cmRun calls r.1 r.2

/-- The ids newly recorded as missed across a sequence of calls. -/
def cmRunAdds : List (Int × List LiveVeh) → List String → List String
  | [], _ => []
  | (t, live) :: calls, am => cmAdds t am live ++ cmRunAdds calls (am ++ cmAdds t am live)

/-- `INCOMING_EDGES` from `simulation.py` line 12. -/
def INCOMING_EDGES : List String := ["E0", "-E1", "-E2", "-E3"]

/-- `MIN_GREEN` from `simulation.py` line 30 (the model's run functions take
the minimum-green constant as a parameter `mg`; the source fixes it to 8). -/
def MIN_GREEN : Nat := 8

/-- The vehicle id `f"{edge}_{step}"` built in `spawn_vehicles`. -/
def mkVid (edge : String) (step : Nat) : String :=
  edge ++ "_" ++ toString step

/-- Outcomes of the `traci` boundary and of the random draws, per step:
the type `weighted_priority_choice` returns for the vehicle of a given
edge, whether `add` and `setParameter` succeed, which admitted vehicles
`getIDList` currently reports, and which of them
`edge.getLastStepVehicleIDs` reports on a given edge.  (The random route
choice does not influence any modelled quantity.) -/
structure Oracle where
  vtypeAt : Nat → String → VType
  addOk : Nat → String → Bool
  setDlOk : Nat → String → Bool
  aliveAt : Nat → String → Bool
  onEdgeAt : Nat → String → String → Bool

/-- The body of the spawn loop of `spawn_vehicles` for one edge
(`simulation.py` lines 98-119): on `add` success the spawned counter of the
drawn type is incremented, then the deadline parameter is set (a
`setParameter` failure is caught by the same `except`, leaving the vehicle
admitted without a deadline); an `add` failure — including a duplicate
vehicle id, which SUMO rejects — is caught and leaves no trace. -/
def spawnOne (O : Oracle) (step : Nat) (st : Counts × List EngVeh) (edge : String) :
    Counts × List EngVeh :=
  let vid := mkVid edge step
  let vt := O.vtypeAt step edge
  if vid ∈ st.2.map EngVeh.vid ∨ O.addOk step edge = false then st
  else
    let c := st.1.incSpawned vt.str
    if O.setDlOk step edge then (c, st.2 ++ [⟨vid, vt, some ((step : Int) + vt.offset)⟩])
    else (c, st.2 ++ [⟨vid, vt, none⟩])

/-- `spawn_vehicles` from `simulation.py` lines 91-119: every 10 steps, one
spawn attempt per incoming edge. -/
def spawn_vehicles (O : Oracle) (step : Nat) (c : Counts) (eng : List EngVeh) :
    Counts × List EngVeh :=
  if step % 10 = 0 then INCOMING_EDGES.foldl (spawnOne O step) (c, eng)
  else (c, eng)

/-- The live vehicles observed at a step, as `check_missed_deadlines` sees
them: each currently-live admitted vehicle with its stored deadline
parameter (`getParameter` returns the empty string when the parameter was
never set) and its stored type label. -/
def liveOf (O : Oracle) (step : Nat) (eng : List EngVeh) : List LiveVeh :=
  (eng.filter (fun v => O.aliveAt step v.vid)).map
    (fun v => ⟨v.vid, match v.dl with | none => DlLookup.empty | some d => DlLookup.val d,
               TyLookup.ok v.vt.str⟩)

/-- The `edge_vehicles` snapshot of `run_simulation` (lines 61-64), as
`edf_pick_edge` consumes it. -/
def edgeVehiclesEDF (O : Oracle) (step : Nat) (eng : List EngVeh) : EdgeMapEDF :=
  INCOMING_EDGES.map (fun e =>
    (e, (eng.filter (fun v => O.aliveAt step v.vid && O.onEdgeAt step e v.vid)).map
          (fun v => match v.dl with | none => DlLookup.empty | some d => DlLookup.val d)))

/-- The `edge_vehicles` snapshot, as `fp_pick_edge` consumes it. -/
def edgeVehiclesFP (O : Oracle) (step : Nat) (eng : List EngVeh) : EdgeMapFP :=
  INCOMING_EDGES.map (fun e =>
    (e, (eng.filter (fun v => O.aliveAt step v.vid && O.onEdgeAt step e v.vid)).map
          (fun v => TyLookup.ok v.vt.str)))

/-- The discipline dispatch of `run_simulation` (lines 68-73): "edf" and
"fixed" call the respective selector; any other name raises `ValueError`. -/
def pickEdge (method : String) (O : Oracle) (step : Nat) (eng : List EngVeh) :
    Except PyErr String :=
  if method = "edf" then edf_pick_edge (edgeVehiclesEDF O step eng) (step : Int)
  else if method = "fixed" then fp_pick_edge (edgeVehiclesFP O step eng)
  else .error .valueError

/-- The mutable state of `run_simulation` plus the engine store and the log
of committed phase indices (`setPhase` calls). -/
structure SimSt where
  current_phase_edge : Option String
  time_in_phase : Nat
  counts : Counts
  already_missed : List String
  engine : List EngVeh
  phases : List Nat
deriving DecidableEq

/-- The decision-due test of `run_simulation` line 67:
`(current_phase_edge is None) or (time_in_phase >= MIN_GREEN)`. -/
def dueCheck (mg : Nat) (s : SimSt) : Bool :=
  s.current_phase_edge.isNone || decide (mg ≤ s.time_in_phase)

/-- One iteration of the `while` loop of `run_simulation` (lines 54-85) at
loop counter `step`: spawn, miss-check, then — when a decision is due — the
selector dispatch; an uncaught exception (unknown method, or a `ValueError`
escaping `edf_pick_edge`) aborts the run with the state reached at the
raise (counters already updated, no phase committed this tick).  On a
commit, `time_in_phase` is reset to 0; the trailing `time_in_phase += 1`
runs on every non-aborting path. -/
def simTick (method : String) (mg : Nat) (O : Oracle) (step : Nat) (s : SimSt) :
    Except SimSt SimSt :=
  let p := spawn_vehicles O step s.counts s.engine
  let q := check_missed_deadlines (step : Int) (liveOf O step p.2) p.1 s.already_missed
  if dueCheck mg s then
    match pickEdge method O step p.2 with
    | .error _ => .error ⟨s.current_phase_edge, s.time_in_phase, q.1, q.2, p.2, s.phases⟩
    | .ok e => .ok ⟨some e, 1, q.1, q.2, p.2, s.phases ++ [get_phase_for_edge e]⟩
  else .ok ⟨s.current_phase_edge, s.time_in_phase + 1, q.1, q.2, p.2, s.phases⟩

/-- `n` iterations of the `run_simulation` loop from an arbitrary starting
state; an abort freezes the run in the aborting state. -/
def simRunFrom (method : String) (mg : Nat) (O : Oracle) (s0 : SimSt) : Nat → Except SimSt SimSt
  | 0 => .ok s0
  | n + 1 =>
    match simRunFrom method mg O s0 n with
    | .error s => .error s
    | .ok s => simTick method mg O n s

/-- Zero-valued counters, as initialised in `run_simulation` lines 45-49. -/
def initCounts : Counts := ⟨⟨0, 0⟩, ⟨0, 0⟩, ⟨0, 0⟩⟩

/-- The starting state of `run_simulation`: no phase chosen, zero counters,
nothing admitted, nothing missed. -/
def initSt : SimSt := ⟨none, 0, initCounts, [], [], []⟩

/-- `n` iterations of `run_simulation` from its real starting state. -/
def simRun (method : String) (mg : Nat) (O : Oracle) (n : Nat) : Except SimSt SimSt :=
  simRunFrom method mg O initSt n

/-- The run state after `n` ticks from `s0` (the aborting state, if the run
aborted earlier). -/
def stateAtFrom (method : String) (mg : Nat) (O : Oracle) (s0 : SimSt) (n : Nat) : SimSt :=
  match simRunFrom method mg O s0 n with
  | .error s => s
  | .ok s => s

/-- Whether tick `n` of the run from `s0` enters the selection branch. -/
def decisionMade (method : String) (mg : Nat) (O : Oracle) (s0 : SimSt) (n : Nat) : Bool :=
  match simRunFrom method mg O s0 n with
  | .error _ => false
  | .ok s => dueCheck mg s

/-- The state in which a run with an unknown control method aborts: tick 0's
spawn and miss-check already applied, no phase ever committed. -/
def abortStateOf (O : Oracle) : SimSt :=
  let p := spawn_vehicles O 0 initCounts []
  let q := check_missed_deadlines 0 (liveOf O 0 p.2) p.1 []
  ⟨none, 0, q.1, q.2, p.2, []⟩

/-- Admitted vehicles of one class. -/
def countClass (vt : VType) (eng : List EngVeh) : Nat :=
  eng.countP (fun v => decide (v.vt = vt))

/-- Admitted vehicles of one class whose id has been recorded as missed. -/
def countClassMissed (vt : VType) (am : List String) (eng : List EngVeh) : Nat :=
  eng.countP (fun v => decide (v.vt = vt) && decide (v.vid ∈ am))

/-- Whether the run from `s0` is still alive (has not raised) after `n`
ticks. -/
def runOk (method : String) (mg : Nat) (O : Oracle) (s0 : SimSt) (n : Nat) : Bool :=
  match simRunFrom method mg O s0 n with
  | .error _ => false
  | .ok _ => true

/-- The state reached by one loop iteration, whether it returned normally or
aborted (all abort paths carry the state at the raise). -/
def tickState (method : String) (mg : Nat) (O : Oracle) (step : Nat) (s : SimSt) : SimSt :=
  match simTick method mg O step s with
  | .error x => x
  | .ok x => x

/-- The counter bookkeeping invariant of a run state: each class's spawned
counter equals the number of admitted vehicles of that class, admitted
vehicle ids are pairwise distinct, the already-missed set is duplicate-free
and only holds admitted ids, and each class's missed counter equals the
number of admitted vehicles of that class whose id was recorded as missed. -/
def CountsInv (s : SimSt) : Prop :=
  (∀ vt : VType, s.counts.spawnedOf vt = countClass vt s.engine) ∧
  ((s.engine.map EngVeh.vid).Nodup) ∧
  s.already_missed.Nodup ∧
  (∀ vid ∈ s.already_missed, vid ∈ s.engine.map EngVeh.vid) ∧
  (∀ vt : VType, s.counts.missedOf vt = countClassMissed vt s.already_missed s.engine)

/-- A live-vehicle observation agrees with the engine store: its id belongs
to an admitted vehicle and its `getTypeID` result is that vehicle's stored
type label. -/
def engConsistent (eng : List EngVeh) (v : LiveVeh) : Prop :=
  ∃ w ∈ eng, v.vid = w.vid ∧ v.ty = TyLookup.ok w.vt.str

/-- A boundary oracle where every call succeeds, every admitted vehicle
stays live on every edge, and every draw yields "LV". -/
def oracleBusy : Oracle :=
  ⟨fun _ _ => VType.LV, fun _ _ => true, fun _ _ => true, fun _ _ => true, fun _ _ _ => true⟩

/-- A boundary oracle where no vehicle is ever admitted or observed. -/
def oracleIdle : Oracle :=
  ⟨fun _ _ => VType.LV, fun _ _ => false, fun _ _ => false, fun _ _ => false, fun _ _ _ => false⟩

/-! Helper lemmas about the selector loops. -/

lemma PRIORITY_MAP_nonneg (vt : String) : 0 ≤ PRIORITY_MAP vt := by
  unfold PRIORITY_MAP
  split
  · decide
  split
  · decide
  split
  · decide
  · decide

lemma prioOf_nonneg (o : Option String) : 0 ≤ prioOf o := by
  cases o with
  | none => exact le_refl 0
  | some vt => exact PRIORITY_MAP_nonneg vt

lemma fpScore_nonneg (vs : List TyLookup) : 0 ≤ fpScore vs := by
  unfold fpScore
  have h1 : (0 : Int) ≤ prioOf (get_highest_priority_vehicle_type vs) * 100 :=
    mul_nonneg (prioOf_nonneg _) (by norm_num)
  have h2 : (0 : Int) ≤ (vs.length : Int) := Int.natCast_nonneg _
  exact add_nonneg h1 h2

lemma maxByLenLoop_mem : ∀ (l : List (String × Nat)) (accE : String) (accLen : Nat),
    maxByLenLoop accE accLen l = accE ∨ maxByLenLoop accE accLen l ∈ l.map Prod.fst := by
  intro l
  induction l with
  | nil => intro accE accLen; left; rfl
  | cons p rest ih =>
    intro accE accLen
    obtain ⟨e, n⟩ := p
    by_cases h : n > accLen
    · rw [show maxByLenLoop accE accLen ((e, n) :: rest) = maxByLenLoop e n rest by
        simp [maxByLenLoop, if_pos h]]
      rcases ih e n with h1 | h1
      · right; simp [h1]
      · right; simp only [List.map_cons, List.mem_cons]; exact Or.inr h1
    · rw [show maxByLenLoop accE accLen ((e, n) :: rest) = maxByLenLoop accE accLen rest by
        simp [maxByLenLoop, if_neg h]]
      rcases ih accE accLen with h1 | h1
      · left; exact h1
      · right; simp only [List.map_cons, List.mem_cons]; exact Or.inr h1

lemma maxByLen_spec {α : Type} (ev : List (String × List α)) (hne : ev ≠ []) :
    ∃ e, maxByLen ev = .ok e ∧ e ∈ ev.map Prod.fst := by
  cases ev with
  | nil => exact absurd rfl hne
  | cons p rest =>
    obtain ⟨e0, vs0⟩ := p
    refine ⟨_, rfl, ?_⟩
    rcases maxByLenLoop_mem (rest.map fun p => (p.1, p.2.length)) e0 vs0.length with h | h
    · simp [h]
    · simp only [List.map_map, List.map_cons, List.mem_cons]
      right
      simpa using h

lemma minRemainLoop_eq_pyMinRemain (t : Int) : ∀ (vs : List DlLookup) (acc : Option Int),
    (∀ v ∈ vs, v ≠ DlLookup.bad) →
    minRemainLoop t vs acc = .ok (pyMinRemain t vs acc) := by
  intro vs
  induction vs with
  | nil => intro acc _; rfl
  | cons v vs ih =>
    intro acc hnb
    have hrest : ∀ w ∈ vs, w ≠ DlLookup.bad := fun w hw => hnb w (List.mem_cons_of_mem v hw)
    cases v with
    | fail => exact ih acc hrest
    | empty => exact ih acc hrest
    | bad => exact absurd rfl (hnb DlLookup.bad (List.mem_cons_self _ _))
    | val d =>
      cases acc with
      | none => exact ih (some (d - t)) hrest
      | some m =>
        by_cases h : d - t < m
        · rw [show minRemainLoop t (DlLookup.val d :: vs) (some m) =
              minRemainLoop t vs (some (d - t)) by simp [minRemainLoop, if_pos h],
            show pyMinRemain t (DlLookup.val d :: vs) (some m) =
              pyMinRemain t vs (some (d - t)) by simp [pyMinRemain, if_pos h]]
          exact ih (some (d - t)) hrest
        · rw [show minRemainLoop t (DlLookup.val d :: vs) (some m) =
              minRemainLoop t vs (some m) by simp [minRemainLoop, if_neg h],
            show pyMinRemain t (DlLookup.val d :: vs) (some m) =
              pyMinRemain t vs (some m) by simp [pyMinRemain, if_neg h]]
          exact ih (some m) hrest

lemma edfLoop_eq_edfLoopOk (t : Int) : ∀ (ev : EdgeMapEDF) (acc : Option (String × Int)),
    (∀ p ∈ ev, ∀ v ∈ p.2, v ≠ DlLookup.bad) →
    edfLoop t ev (acc.map Prod.fst) (acc.map Prod.snd) =
      .ok ((edfLoopOk t ev acc).map Prod.fst) := by
  intro ev
  induction ev with
  | nil => intro acc _; rfl
  | cons p rest ih =>
    intro acc hnb
    obtain ⟨e, vs⟩ := p
    have hvs : ∀ v ∈ vs, v ≠ DlLookup.bad := fun v hv => hnb (e, vs) (List.mem_cons_self _ _) v hv
    have hrest : ∀ p ∈ rest, ∀ v ∈ p.2, v ≠ DlLookup.bad :=
      fun p hp v hv => hnb p (List.mem_cons_of_mem _ hp) v hv
    have hbridge := minRemainLoop_eq_pyMinRemain t vs none hvs
    cases hmr : pyMinRemain t vs none with
    | none =>
      rw [hmr] at hbridge
      calc edfLoop t ((e, vs) :: rest) (acc.map Prod.fst) (acc.map Prod.snd)
          = edfLoop t rest (acc.map Prod.fst) (acc.map Prod.snd) := by
            simp [edfLoop, hbridge]
        _ = .ok ((edfLoopOk t rest acc).map Prod.fst) := ih acc hrest
        _ = .ok ((edfLoopOk t ((e, vs) :: rest) acc).map Prod.fst) := by
            simp [edfLoopOk, hmr]
    | some m =>
      rw [hmr] at hbridge
      cases acc with
      | none =>
        show edfLoop t ((e, vs) :: rest) none none =
          .ok ((edfLoopOk t ((e, vs) :: rest) none).map Prod.fst)
        calc edfLoop t ((e, vs) :: rest) none none
            = edfLoop t rest (some e) (some m) := by simp [edfLoop, hbridge]
          _ = .ok ((edfLoopOk t rest (some (e, m))).map Prod.fst) := ih (some (e, m)) hrest
          _ = .ok ((edfLoopOk t ((e, vs) :: rest) none).map Prod.fst) := by
              simp [edfLoopOk, hmr]
      | some pm =>
        obtain ⟨e0, m0⟩ := pm
        show edfLoop t ((e, vs) :: rest) (some e0) (some m0) =
          .ok ((edfLoopOk t ((e, vs) :: rest) (some (e0, m0))).map Prod.fst)
        by_cases h : m < m0
        · calc edfLoop t ((e, vs) :: rest) (some e0) (some m0)
              = edfLoop t rest (some e) (some m) := by simp [edfLoop, hbridge, if_pos h]
            _ = .ok ((edfLoopOk t rest (some (e, m))).map Prod.fst) := ih (some (e, m)) hrest
            _ = .ok ((edfLoopOk t ((e, vs) :: rest) (some (e0, m0))).map Prod.fst) := by
                simp [edfLoopOk, hmr, if_pos h]
        · calc edfLoop t ((e, vs) :: rest) (some e0) (some m0)
              = edfLoop t rest (some e0) (some m0) := by simp [edfLoop, hbridge, if_neg h]
            _ = .ok ((edfLoopOk t rest (some (e0, m0))).map Prod.fst) := ih (some (e0, m0)) hrest
            _ = .ok ((edfLoopOk t ((e, vs) :: rest) (some (e0, m0))).map Prod.fst) := by
                simp [edfLoopOk, hmr, if_neg h]

lemma fpLoop_acc_spec : ∀ (ev : EdgeMapFP) (e0 : String) (s0 : Int),
    (fpLoop ev (some e0) s0 = some e0 ∧ ∀ p ∈ ev, fpScore p.2 ≤ s0) ∨
    (∃ l₁ e vs l₂, ev = l₁ ++ (e, vs) :: l₂ ∧ fpLoop ev (some e0) s0 = some e ∧
      s0 < fpScore vs ∧ (∀ p ∈ l₁, fpScore p.2 < fpScore vs) ∧
      (∀ p ∈ ev, fpScore p.2 ≤ fpScore vs)) := by
  intro ev
  induction ev with
  | nil => intro e0 s0; left; exact ⟨rfl, by simp⟩
  | cons p rest ih =>
    intro e0 s0
    obtain ⟨e, vs⟩ := p
    by_cases h : fpScore vs > s0
    · have heq : fpLoop ((e, vs) :: rest) (some e0) s0 = fpLoop rest (some e) (fpScore vs) := by
        simp [fpLoop, if_pos h]
      rcases ih e (fpScore vs) with ⟨h1, h2⟩ |
        ⟨l₁, w, wvs, l₂, hsplit, hres, hlt, hearlier, hall⟩
      · right
        refine ⟨[], e, vs, rest, rfl, by rw [heq, h1], h, by simp, ?_⟩
        intro p hp
        rcases List.mem_cons.mp hp with hp | hp
        · rw [hp]
        · exact h2 p hp
      · right
        refine ⟨(e, vs) :: l₁, w, wvs, l₂, by rw [hsplit, List.cons_append], by rw [heq, hres],
          lt_trans h hlt, ?_, ?_⟩
        · intro p hp
          rcases List.mem_cons.mp hp with hp | hp
          · rw [hp]; exact hlt
          · exact hearlier p hp
        · intro p hp
          rcases List.mem_cons.mp hp with hp | hp
          · rw [hp]; exact le_of_lt hlt
          · exact hall p hp
    · have heq : fpLoop ((e, vs) :: rest) (some e0) s0 = fpLoop rest (some e0) s0 := by
        simp [fpLoop, if_neg h]
      have hle : fpScore vs ≤ s0 := not_lt.mp h
      rcases ih e0 s0 with ⟨h1, h2⟩ |
        ⟨l₁, w, wvs, l₂, hsplit, hres, hlt, hearlier, hall⟩
      · left
        refine ⟨by rw [heq, h1], ?_⟩
        intro p hp
        rcases List.mem_cons.mp hp with hp | hp
        · rw [hp]; exact hle
        · exact h2 p hp
      · right
        refine ⟨(e, vs) :: l₁, w, wvs, l₂, by rw [hsplit, List.cons_append], by rw [heq, hres], hlt, ?_, ?_⟩
        · intro p hp
          rcases List.mem_cons.mp hp with hp | hp
          · rw [hp]; exact lt_of_le_of_lt hle hlt
          · exact hearlier p hp
        · intro p hp
          rcases List.mem_cons.mp hp with hp | hp
          · rw [hp]; exact le_trans hle (le_of_lt hlt)
          · exact hall p hp

lemma fpLoop_spec (ev : EdgeMapFP) (hne : ev ≠ []) :
    ∃ l₁ e vs l₂, ev = l₁ ++ (e, vs) :: l₂ ∧ fpLoop ev none (-1) = some e ∧
      (∀ p ∈ l₁, fpScore p.2 < fpScore vs) ∧ (∀ p ∈ ev, fpScore p.2 ≤ fpScore vs) := by
  cases ev with
  | nil => exact absurd rfl hne
  | cons p rest =>
    obtain ⟨e, vs⟩ := p
    have h : fpScore vs > (-1 : Int) := lt_of_lt_of_le (by norm_num) (fpScore_nonneg vs)
    have heq : fpLoop ((e, vs) :: rest) none (-1) = fpLoop rest (some e) (fpScore vs) := by
      simp [fpLoop, if_pos h]
    rcases fpLoop_acc_spec rest e (fpScore vs) with ⟨h1, h2⟩ |
      ⟨l₁, w, wvs, l₂, hsplit, hres, hlt, hearlier, hall⟩
    · refine ⟨[], e, vs, rest, rfl, by rw [heq, h1], by simp, ?_⟩
      intro p hp
      rcases List.mem_cons.mp hp with hp | hp
      · rw [hp]
      · exact h2 p hp
    · refine ⟨(e, vs) :: l₁, w, wvs, l₂, by rw [hsplit, List.cons_append], by rw [heq, hres], ?_, ?_⟩
      · intro p hp
        rcases List.mem_cons.mp hp with hp | hp
        · rw [hp]; exact hlt
        · exact hearlier p hp
      · intro p hp
        rcases List.mem_cons.mp hp with hp | hp
        · rw [hp]; exact le_of_lt hlt
        · exact hall p hp

lemma edfLoopOk_acc_spec (t : Int) : ∀ (ev : EdgeMapEDF) (e0 : String) (m0 : Int),
    (edfLoopOk t ev (some (e0, m0)) = some (e0, m0) ∧
      ∀ p ∈ ev, ∀ m', pyMinRemain t p.2 none = some m' → m0 ≤ m') ∨
    (∃ l₁ e vs l₂ m, ev = l₁ ++ (e, vs) :: l₂ ∧
      edfLoopOk t ev (some (e0, m0)) = some (e, m) ∧
      pyMinRemain t vs none = some m ∧ m < m0 ∧
      (∀ p ∈ l₁, ∀ m', pyMinRemain t p.2 none = some m' → m < m') ∧
      (∀ p ∈ ev, ∀ m', pyMinRemain t p.2 none = some m' → m ≤ m')) := by
  intro ev
  induction ev with
  | nil => intro e0 m0; left; exact ⟨rfl, by simp⟩
  | cons p rest ih =>
    intro e0 m0
    obtain ⟨e, vs⟩ := p
    cases hmr : pyMinRemain t vs none with
    | none =>
      have heq : edfLoopOk t ((e, vs) :: rest) (some (e0, m0)) =
          edfLoopOk t rest (some (e0, m0)) := by simp [edfLoopOk, hmr]
      rcases ih e0 m0 with ⟨h1, h2⟩ |
        ⟨l₁, w, wvs, l₂, wm, hsplit, hres, hwm, hlt, hearlier, hall⟩
      · left
        refine ⟨by rw [heq, h1], ?_⟩
        intro p hp m' hm'
        rcases List.mem_cons.mp hp with hp | hp
        · rw [hp] at hm'; rw [hmr] at hm'; exact absurd hm' (by simp)
        · exact h2 p hp m' hm'
      · right
        refine ⟨(e, vs) :: l₁, w, wvs, l₂, wm, by rw [hsplit, List.cons_append], by rw [heq, hres], hwm, hlt,
          ?_, ?_⟩
        · intro p hp m' hm'
          rcases List.mem_cons.mp hp with hp | hp
          · rw [hp] at hm'; rw [hmr] at hm'; exact absurd hm' (by simp)
          · exact hearlier p hp m' hm'
        · intro p hp m' hm'
          rcases List.mem_cons.mp hp with hp | hp
          · rw [hp] at hm'; rw [hmr] at hm'; exact absurd hm' (by simp)
          · exact hall p hp m' hm'
    | some m =>
      by_cases h : m < m0
      · have heq : edfLoopOk t ((e, vs) :: rest) (some (e0, m0)) =
            edfLoopOk t rest (some (e, m)) := by simp [edfLoopOk, hmr, if_pos h]
        rcases ih e m with ⟨h1, h2⟩ |
          ⟨l₁, w, wvs, l₂, wm, hsplit, hres, hwm, hlt, hearlier, hall⟩
        · right
          refine ⟨[], e, vs, rest, m, rfl, by rw [heq, h1], hmr, h, by simp, ?_⟩
          intro p hp m' hm'
          rcases List.mem_cons.mp hp with hp | hp
          · rw [hp] at hm'; rw [hmr] at hm'; injection hm' with hm'; omega
          · exact h2 p hp m' hm'
        · right
          refine ⟨(e, vs) :: l₁, w, wvs, l₂, wm, by rw [hsplit, List.cons_append], by rw [heq, hres], hwm,
            lt_trans hlt h, ?_, ?_⟩
          · intro p hp m' hm'
            rcases List.mem_cons.mp hp with hp | hp
            · rw [hp] at hm'; rw [hmr] at hm'; injection hm' with hm'; omega
            · exact hearlier p hp m' hm'
          · intro p hp m' hm'
            rcases List.mem_cons.mp hp with hp | hp
            · rw [hp] at hm'; rw [hmr] at hm'; injection hm' with hm'; omega
            · exact hall p hp m' hm'
      · have heq : edfLoopOk t ((e, vs) :: rest) (some (e0, m0)) =
            edfLoopOk t rest (some (e0, m0)) := by simp [edfLoopOk, hmr, if_neg h]
        have hle : m0 ≤ m := not_lt.mp h
        rcases ih e0 m0 with ⟨h1, h2⟩ |
          ⟨l₁, w, wvs, l₂, wm, hsplit, hres, hwm, hlt, hearlier, hall⟩
        · left
          refine ⟨by rw [heq, h1], ?_⟩
          intro p hp m' hm'
          rcases List.mem_cons.mp hp with hp | hp
          · rw [hp] at hm'; rw [hmr] at hm'; injection hm' with hm'; omega
          · exact h2 p hp m' hm'
        · right
          refine ⟨(e, vs) :: l₁, w, wvs, l₂, wm, by rw [hsplit, List.cons_append], by rw [heq, hres], hwm, hlt,
            ?_, ?_⟩
          · intro p hp m' hm'
            rcases List.mem_cons.mp hp with hp | hp
            · rw [hp] at hm'; rw [hmr] at hm'; injection hm' with hm'; omega
            · exact hearlier p hp m' hm'
          · intro p hp m' hm'
            rcases List.mem_cons.mp hp with hp | hp
            · rw [hp] at hm'; rw [hmr] at hm'; injection hm' with hm'; omega
            · exact hall p hp m' hm'

lemma edfLoopOk_spec (t : Int) (ev : EdgeMapEDF) :
    (edfLoopOk t ev none = none ∧ ∀ p ∈ ev, pyMinRemain t p.2 none = none) ∨
    (∃ l₁ e vs l₂ m, ev = l₁ ++ (e, vs) :: l₂ ∧ edfLoopOk t ev none = some (e, m) ∧
      pyMinRemain t vs none = some m ∧
      (∀ p ∈ l₁, ∀ m', pyMinRemain t p.2 none = some m' → m < m') ∧
      (∀ p ∈ ev, ∀ m', pyMinRemain t p.2 none = some m' → m ≤ m')) := by
  induction ev with
  | nil => left; exact ⟨rfl, by simp⟩
  | cons p rest ih =>
    obtain ⟨e, vs⟩ := p
    cases hmr : pyMinRemain t vs none with
    | none =>
      have heq : edfLoopOk t ((e, vs) :: rest) none = edfLoopOk t rest none := by
        simp [edfLoopOk, hmr]
      rcases ih with ⟨h1, h2⟩ | ⟨l₁, w, wvs, l₂, wm, hsplit, hres, hwm, hearlier, hall⟩
      · left
        refine ⟨by rw [heq, h1], ?_⟩
        intro p hp
        rcases List.mem_cons.mp hp with hp | hp
        · rw [hp]; exact hmr
        · exact h2 p hp
      · right
        refine ⟨(e, vs) :: l₁, w, wvs, l₂, wm, by rw [hsplit, List.cons_append], by rw [heq, hres], hwm, ?_, ?_⟩
        · intro p hp m' hm'
          rcases List.mem_cons.mp hp with hp | hp
          · rw [hp] at hm'; rw [hmr] at hm'; exact absurd hm' (by simp)
          · exact hearlier p hp m' hm'
        · intro p hp m' hm'
          rcases List.mem_cons.mp hp with hp | hp
          · rw [hp] at hm'; rw [hmr] at hm'; exact absurd hm' (by simp)
          · exact hall p hp m' hm'
    | some m =>
      have heq : edfLoopOk t ((e, vs) :: rest) none = edfLoopOk t rest (some (e, m)) := by
        simp [edfLoopOk, hmr]
      rcases edfLoopOk_acc_spec t rest e m with ⟨h1, h2⟩ |
        ⟨l₁, w, wvs, l₂, wm, hsplit, hres, hwm, hlt, hearlier, hall⟩
      · right
        refine ⟨[], e, vs, rest, m, rfl, by rw [heq, h1], hmr, by simp, ?_⟩
        intro p hp m' hm'
        rcases List.mem_cons.mp hp with hp | hp
        · rw [hp] at hm'; rw [hmr] at hm'; injection hm' with hm'; omega
        · exact h2 p hp m' hm'
      · right
        refine ⟨(e, vs) :: l₁, w, wvs, l₂, wm, by rw [hsplit, List.cons_append], by rw [heq, hres], hwm, ?_, ?_⟩
        · intro p hp m' hm'
          rcases List.mem_cons.mp hp with hp | hp
          · rw [hp] at hm'; rw [hmr] at hm'; injection hm' with hm'; omega
          · exact hearlier p hp m' hm'
        · intro p hp m' hm'
          rcases List.mem_cons.mp hp with hp | hp
          · rw [hp] at hm'; rw [hmr] at hm'; injection hm' with hm'; omega
          · exact hall p hp m' hm'

lemma foldl_min_le_init : ∀ (l : List Int) (a : Int), l.foldl min a ≤ a := by
  intro l
  induction l with
  | nil => intro a; exact le_refl a
  | cons b l ih =>
    intro a
    calc (b :: l).foldl min a = l.foldl min (min a b) := rfl
      _ ≤ min a b := ih (min a b)
      _ ≤ a := min_le_left a b

lemma foldl_min_le_mem : ∀ (l : List Int) (a x : Int), x ∈ l → l.foldl min a ≤ x := by
  intro l
  induction l with
  | nil => intro a x hx; exact absurd hx (by simp)
  | cons b l ih =>
    intro a x hx
    rcases List.mem_cons.mp hx with hx | hx
    · calc (b :: l).foldl min a = l.foldl min (min a b) := rfl
        _ ≤ min a b := foldl_min_le_init l (min a b)
        _ ≤ b := min_le_right a b
        _ = x := hx.symm
    · exact ih (min a b) x hx

lemma foldl_min_cases : ∀ (l : List Int) (a : Int), l.foldl min a = a ∨ l.foldl min a ∈ l := by
  intro l
  induction l with
  | nil => intro a; left; rfl
  | cons b l ih =>
    intro a
    rcases ih (min a b) with h | h
    · rcases min_choice a b with hm | hm
      · left; rw [show (b :: l).foldl min a = l.foldl min (min a b) from rfl, h, hm]
      · right
        rw [show (b :: l).foldl min a = l.foldl min (min a b) from rfl, h, hm]
        exact List.mem_cons_self b l
    · right
      rw [show (b :: l).foldl min a = l.foldl min (min a b) from rfl]
      exact List.mem_cons_of_mem b h

lemma pyMinRemain_some_eq (t : Int) : ∀ (vs : List DlLookup) (a : Int),
    pyMinRemain t vs (some a) = some ((remainsOf t vs).foldl min a) := by
  intro vs
  induction vs with
  | nil => intro a; rfl
  | cons v vs ih =>
    intro a
    cases v with
    | fail => exact ih a
    | empty => exact ih a
    | bad => exact ih a
    | val d =>
      have hrem : remainsOf t (DlLookup.val d :: vs) = (d - t) :: remainsOf t vs := rfl
      by_cases h : d - t < a
      · rw [show pyMinRemain t (DlLookup.val d :: vs) (some a) =
            pyMinRemain t vs (some (d - t)) by simp [pyMinRemain, if_pos h],
          ih (d - t), hrem]
        rw [show ((d - t) :: remainsOf t vs).foldl min a =
            (remainsOf t vs).foldl min (min a (d - t)) from rfl,
          min_eq_right (le_of_lt h)]
      · rw [show pyMinRemain t (DlLookup.val d :: vs) (some a) =
            pyMinRemain t vs (some a) by simp [pyMinRemain, if_neg h],
          ih a, hrem]
        rw [show ((d - t) :: remainsOf t vs).foldl min a =
            (remainsOf t vs).foldl min (min a (d - t)) from rfl,
          min_eq_left (not_lt.mp h)]

lemma pyMinRemain_none_eq (t : Int) : ∀ (vs : List DlLookup),
    pyMinRemain t vs none =
      (match remainsOf t vs with
       | [] => none
       | r :: rs => some (rs.foldl min r)) := by
  intro vs
  induction vs with
  | nil => rfl
  | cons v vs ih =>
    cases v with
    | fail => exact ih
    | empty => exact ih
    | bad => exact ih
    | val d =>
      rw [show pyMinRemain t (DlLookup.val d :: vs) none =
          pyMinRemain t vs (some (d - t)) from rfl,
        pyMinRemain_some_eq t vs (d - t),
        show remainsOf t (DlLookup.val d :: vs) = (d - t) :: remainsOf t vs from rfl]

lemma pyMinRemain_none_iff (t : Int) (vs : List DlLookup) :
    pyMinRemain t vs none = none ↔ remainsOf t vs = [] := by
  rw [pyMinRemain_none_eq]
  cases h : remainsOf t vs with
  | nil => simp
  | cons r rs => simp

lemma pyMinRemain_min (t : Int) (vs : List DlLookup) (m : Int)
    (h : pyMinRemain t vs none = some m) :
    m ∈ remainsOf t vs ∧ ∀ x ∈ remainsOf t vs, m ≤ x := by
  rw [pyMinRemain_none_eq] at h
  cases hr : remainsOf t vs with
  | nil => rw [hr] at h; exact absurd h (by simp)
  | cons r rs =>
    rw [hr] at h
    injection h with h
    constructor
    · rcases foldl_min_cases rs r with hc | hc
      · rw [← h, hc]; exact List.mem_cons_self r rs
      · rw [← h]; exact List.mem_cons_of_mem r hc
    · intro x hx
      rcases List.mem_cons.mp hx with hx | hx
      · rw [← h, hx]; exact foldl_min_le_init rs r
      · rw [← h]; exact foldl_min_le_mem rs r x hx

lemma fpScore_nil : fpScore [] = 0 := rfl

lemma fpLoop_all_empty : ∀ (rest : EdgeMapFP) (e0 : String),
    (∀ p ∈ rest, p.2 = []) → fpLoop rest (some e0) 0 = some e0 := by
  intro rest
  induction rest with
  | nil => intro e0 _; rfl
  | cons p rest ih =>
    intro e0 hemp
    obtain ⟨e, vs⟩ := p
    have hvs : vs = [] := hemp (e, vs) (List.mem_cons_self _ _)
    subst hvs
    rw [show fpLoop ((e, []) :: rest) (some e0) 0 = fpLoop rest (some e0) 0 by
      simp [fpLoop, fpScore_nil]]
    exact ih e0 (fun p hp => hemp p (List.mem_cons_of_mem _ hp))

lemma maxByLenLoop_all_zero : ∀ (l : List (String × Nat)) (accE : String),
    (∀ p ∈ l, p.2 = 0) → maxByLenLoop accE 0 l = accE := by
  intro l
  induction l with
  | nil => intro accE _; rfl
  | cons p l ih =>
    intro accE hz
    obtain ⟨e, n⟩ := p
    have hn : n = 0 := hz (e, n) (List.mem_cons_self _ _)
    subst hn
    rw [show maxByLenLoop accE 0 ((e, 0) :: l) = maxByLenLoop accE 0 l by
      simp [maxByLenLoop]]
    exact ih accE (fun p hp => hz p (List.mem_cons_of_mem _ hp))

lemma edfLoop_all_empty (t : Int) : ∀ (rest : EdgeMapEDF),
    (∀ p ∈ rest, p.2 = []) → edfLoop t rest none none = .ok none := by
  intro rest
  induction rest with
  | nil => intro _; rfl
  | cons p rest ih =>
    intro hemp
    obtain ⟨e, vs⟩ := p
    have hvs : vs = [] := hemp (e, vs) (List.mem_cons_self _ _)
    subst hvs
    rw [show edfLoop t ((e, []) :: rest) none none = edfLoop t rest none none from rfl]
    exact ih (fun p hp => hemp p (List.mem_cons_of_mem _ hp))

lemma fp_pick_edge_total (ev : EdgeMapFP) (hne : ev ≠ []) :
    ∃ e, fp_pick_edge ev = .ok e ∧ e ∈ ev.map Prod.fst := by
  obtain ⟨l₁, e, vs, l₂, hsplit, hres, -, -⟩ := fpLoop_spec ev hne
  have hfp : fp_pick_edge ev = if e = "" then maxByLen ev else Except.ok e := by
    simp only [fp_pick_edge, hres]
  by_cases he : e = ""
  · obtain ⟨w, hw, hwm⟩ := maxByLen_spec ev hne
    exact ⟨w, by rw [hfp, if_pos he]; exact hw, hwm⟩
  · refine ⟨e, by rw [hfp, if_neg he], ?_⟩
    rw [hsplit]
    simp

lemma edf_pick_edge_total (ev : EdgeMapEDF) (t : Int) (hne : ev ≠ [])
    (hnb : ∀ p ∈ ev, ∀ v ∈ p.2, v ≠ DlLookup.bad) :
    ∃ e, edf_pick_edge ev t = .ok e ∧ e ∈ ev.map Prod.fst := by
  have hb := edfLoop_eq_edfLoopOk t ev none hnb
  simp only [Option.map_none'] at hb
  cases hok : edfLoopOk t ev none with
  | none =>
    rw [hok] at hb
    simp only [Option.map_none'] at hb
    have hedf : edf_pick_edge ev t = maxByLen ev := by
      simp only [edf_pick_edge, hb]
    obtain ⟨w, hw, hwm⟩ := maxByLen_spec ev hne
    exact ⟨w, by rw [hedf]; exact hw, hwm⟩
  | some pm =>
    obtain ⟨e, m⟩ := pm
    rw [hok] at hb
    simp only [Option.map_some'] at hb
    have hedf : edf_pick_edge ev t = if e = "" then maxByLen ev else Except.ok e := by
      simp only [edf_pick_edge, hb]
    by_cases he : e = ""
    · obtain ⟨w, hw, hwm⟩ := maxByLen_spec ev hne
      exact ⟨w, by rw [hedf, if_pos he]; exact hw, hwm⟩
    · refine ⟨e, by rw [hedf, if_neg he], ?_⟩
      rcases edfLoopOk_spec t ev with ⟨h1, -⟩ | ⟨l₁, w, wvs, l₂, wm, hsplit, hres, -, -, -⟩
      · rw [h1] at hok; exact absurd hok (by simp)
      · rw [hres] at hok
        injection hok with hok
        have hw : w = e := congrArg Prod.fst hok
        rw [hsplit, ← hw]
        simp

/-! Claims about the selectors. -/

/-- C1, counterexample: a vehicle whose "deadline" parameter is a non-empty
string that `float()` cannot parse makes `edf_pick_edge` raise `ValueError`
(only `traci.TraCIException` is caught), aborting the selection instead of
skipping the vehicle. -/
theorem edf_unparseable_deadline_raises :
    edf_pick_edge [("E0", [DlLookup.bad])] 0 = Except.error PyErr.valueError := rfl

/-- C1 (amended): a vehicle whose deadline lookup raises `TraCIException` or
returns the empty string is skipped by the minimum-remaining computation,
and on inputs where no vehicle carries a non-empty unparseable deadline
string, `edf_pick_edge` returns a queue identifier of the mapping without
raising; but a non-empty unparseable deadline string raises an uncaught
`ValueError`. -/
theorem edf_skip_failed_lookups (t : Int) (vs : List DlLookup) (acc : Option Int)
    (ev : EdgeMapEDF) (hne : ev ≠ [])
    (hnb : ∀ p ∈ ev, ∀ v ∈ p.2, v ≠ DlLookup.bad) :
    minRemainLoop t (DlLookup.fail :: vs) acc = minRemainLoop t vs acc ∧
    minRemainLoop t (DlLookup.empty :: vs) acc = minRemainLoop t vs acc ∧
    ∃ e, edf_pick_edge ev t = Except.ok e ∧ e ∈ ev.map Prod.fst :=
  ⟨rfl, rfl, edf_pick_edge_total ev t hne hnb⟩

theorem edf_skip_failed_lookups_witness :
    edf_pick_edge [("E0", [DlLookup.fail, DlLookup.empty, DlLookup.val 7])] 0 =
      Except.ok "E0" := by
  obtain ⟨-, -, e, he, hmem⟩ := edf_skip_failed_lookups 0 [] none
    [("E0", [DlLookup.fail, DlLookup.empty, DlLookup.val 7])] (by simp) (by decide)
  have h : e = "E0" := by simpa using hmem
  rw [h] at he
  exact he

/-- C6, counterexample: `edf_pick_edge` can fail on a non-empty queue
mapping — a queue with an unparseable non-empty deadline string raises
`ValueError`. -/
theorem selector_never_fails_cex :
    edf_pick_edge [("E0", [DlLookup.val 5]), ("-E1", [DlLookup.bad])] 3 =
      Except.error PyErr.valueError := rfl

/-- C6 (amended): on non-empty mappings `fp_pick_edge` always returns a
member of the mapping, and `edf_pick_edge` does so provided no vehicle
carries a non-empty unparseable deadline string; on the empty mapping both
raise `ValueError` (from `max()` on an empty sequence). -/
theorem selector_membership_amended :
    (∀ (ev : EdgeMapFP), ev ≠ [] →
      ∃ e, fp_pick_edge ev = Except.ok e ∧ e ∈ ev.map Prod.fst) ∧
    (∀ (ev : EdgeMapEDF) (t : Int), ev ≠ [] →
      (∀ p ∈ ev, ∀ v ∈ p.2, v ≠ DlLookup.bad) →
      ∃ e, edf_pick_edge ev t = Except.ok e ∧ e ∈ ev.map Prod.fst) ∧
    fp_pick_edge ([] : EdgeMapFP) = Except.error PyErr.valueError ∧
    (∀ (t : Int), edf_pick_edge ([] : EdgeMapEDF) t = Except.error PyErr.valueError) :=
  ⟨fun ev hne => fp_pick_edge_total ev hne,
   fun ev t hne hnb => edf_pick_edge_total ev t hne hnb, rfl, fun _ => rfl⟩

theorem selector_membership_amended_witness :
    fp_pick_edge [("E0", [TyLookup.ok "HV"])] = Except.ok "E0" ∧
    edf_pick_edge [("-E1", [DlLookup.val 9])] 2 = Except.ok "-E1" ∧
    fp_pick_edge ([] : EdgeMapFP) = Except.error PyErr.valueError := by
  obtain ⟨hfp, hedf, hnil, -⟩ := selector_membership_amended
  obtain ⟨e1, he1, hm1⟩ := hfp [("E0", [TyLookup.ok "HV"])] (by simp)
  obtain ⟨e2, he2, hm2⟩ := hedf [("-E1", [DlLookup.val 9])] 2 (by simp) (by decide)
  have h1 : e1 = "E0" := by simpa using hm1
  have h2 : e2 = "-E1" := by simpa using hm2
  rw [h1] at he1
  rw [h2] at he2
  exact ⟨he1, he2, hnil⟩

/-- C10, counterexample: on the non-empty mapping
`{"": [MV], "B": [LV, LV, LV]}` the scoring loop does assign a best edge
(the empty-string edge, score 201 against 103), yet the
largest-raw-queue-length fallback branch executes — `if not best_edge:` is
true for the falsy empty-string id — and overrides the loop's choice with
"B". -/
theorem fp_fallback_reachable_cex :
    fpLoop [("", [TyLookup.ok "MV"]),
        ("B", [TyLookup.ok "LV", TyLookup.ok "LV", TyLookup.ok "LV"])] none (-1) =
      some "" ∧
    fp_pick_edge [("", [TyLookup.ok "MV"]),
        ("B", [TyLookup.ok "LV", TyLookup.ok "LV", TyLookup.ok "LV"])] =
      Except.ok "B" :=
  ⟨by decide, by decide⟩

/-- C10 (amended): on every non-empty mapping the scoring loop assigns a
best edge (every score is ≥ 0 > -1), and when every edge identifier is a
non-empty string the fallback branch is unreachable: `fp_pick_edge` returns
exactly the loop's best edge. -/
theorem fp_fallback_amended (ev : EdgeMapFP) (hne : ev ≠ []) :
    ∃ e, fpLoop ev none (-1) = some e ∧ e ∈ ev.map Prod.fst ∧
      ((∀ p ∈ ev, p.1 ≠ "") → fp_pick_edge ev = Except.ok e) := by
  obtain ⟨l₁, e, vs, l₂, hsplit, hres, -, -⟩ := fpLoop_spec ev hne
  have hmem : (e, vs) ∈ ev := by rw [hsplit]; simp
  refine ⟨e, hres, by rw [hsplit]; simp, ?_⟩
  intro hids
  have he : e ≠ "" := hids (e, vs) hmem
  simp only [fp_pick_edge, hres]
  rw [if_neg he]

theorem fp_fallback_amended_witness :
    fpLoop [("E0", [TyLookup.ok "HV"])] none (-1) = some "E0" ∧
    fp_pick_edge [("E0", [TyLookup.ok "HV"])] = Except.ok "E0" := by
  obtain ⟨e, h1, hm, h2⟩ := fp_fallback_amended [("E0", [TyLookup.ok "HV"])] (by simp)
  have he : e = "E0" := by simpa using hm
  rw [he] at h1 h2
  exact ⟨h1, h2 (by decide)⟩

/-- C4, counterexample: queue `""` holds the top-weight vehicle (weight 3
against 1) and all queues are shorter than 100, yet `fp_pick_edge` returns
"B": the winning empty-string id is falsy, so the length fallback overrides
the dominant queue. -/
theorem fp_weight_dominance_cex :
    prioOf (get_highest_priority_vehicle_type [TyLookup.ok "HV"]) = 3 ∧
    prioOf (get_highest_priority_vehicle_type [TyLookup.ok "LV", TyLookup.ok "LV"]) = 1 ∧
    fp_pick_edge [("", [TyLookup.ok "HV"]), ("B", [TyLookup.ok "LV", TyLookup.ok "LV"])] =
      Except.ok "B" :=
  ⟨by decide, by decide, by decide⟩

/-- C4 (amended): when one queue's highest vehicle-priority weight strictly
exceeds every other queue's, every queue holds fewer than 100 vehicles, and
the dominant queue's identifier is non-empty (so that Python truthiness
cannot trigger the fallback), `fp_pick_edge` selects the dominant queue
regardless of queue lengths, because its score `weight*100 + length`
strictly dominates. -/
theorem fp_weight_dominance_amended (l₁ l₂ : EdgeMapFP) (a : String) (avs : List TyLookup)
    (ha : a ≠ "")
    (hdom : ∀ p ∈ l₁ ++ l₂, prioOf (get_highest_priority_vehicle_type p.2) <
      prioOf (get_highest_priority_vehicle_type avs))
    (hlen : ∀ p ∈ l₁ ++ (a, avs) :: l₂, p.2.length < 100) :
    fp_pick_edge (l₁ ++ (a, avs) :: l₂) = Except.ok a := by
  set ev := l₁ ++ (a, avs) :: l₂ with hev
  have hne : ev ≠ [] := by
    rw [hev]
    intro h
    exact absurd (List.append_eq_nil.mp h).2 (List.cons_ne_nil _ _)
  have hscore : ∀ p ∈ l₁ ++ l₂, fpScore p.2 < fpScore avs := by
    intro p hp
    have hpev : p ∈ ev := by
      rw [hev]
      rcases List.mem_append.mp hp with h | h
      · exact List.mem_append.mpr (Or.inl h)
      · exact List.mem_append.mpr (Or.inr (List.mem_cons_of_mem _ h))
    have hplen : ((p.2.length : Int)) < 100 := by exact_mod_cast hlen p hpev
    have hwp : prioOf (get_highest_priority_vehicle_type p.2) + 1 ≤
        prioOf (get_highest_priority_vehicle_type avs) := hdom p hp
    have hmul : (prioOf (get_highest_priority_vehicle_type p.2) + 1) * 100 ≤
        prioOf (get_highest_priority_vehicle_type avs) * 100 :=
      mul_le_mul_of_nonneg_right hwp (by norm_num)
    have hla : (0 : Int) ≤ (avs.length : Int) := Int.natCast_nonneg _
    unfold fpScore
    linarith
  obtain ⟨L₁, w, wvs, L₂, hsplit, hres, -, hall⟩ := fpLoop_spec ev hne
  have hwmem : (w, wvs) ∈ ev := by rw [hsplit]; simp
  have hamem : (a, avs) ∈ ev := by rw [hev]; simp
  have hwa : w = a := by
    rw [hev] at hwmem
    rcases List.mem_append.mp hwmem with h | h
    · exact absurd (hall (a, avs) hamem)
        (not_le.mpr (hscore (w, wvs) (List.mem_append.mpr (Or.inl h))))
    · rcases List.mem_cons.mp h with h | h
      · exact congrArg Prod.fst h
      · exact absurd (hall (a, avs) hamem)
          (not_le.mpr (hscore (w, wvs) (List.mem_append.mpr (Or.inr h))))
  rw [hwa] at hres
  simp only [fp_pick_edge, hres]
  rw [if_neg ha]

theorem fp_weight_dominance_witness :
    fpScore [TyLookup.ok "HV"] = 301 ∧
    fpScore [TyLookup.ok "LV", TyLookup.ok "LV", TyLookup.ok "LV", TyLookup.ok "LV"] = 104 ∧
    fp_pick_edge [("A", [TyLookup.ok "HV"]),
      ("B", [TyLookup.ok "LV", TyLookup.ok "LV", TyLookup.ok "LV", TyLookup.ok "LV"])] =
      Except.ok "A" := by
  refine ⟨by decide, by decide, ?_⟩
  exact fp_weight_dominance_amended []
    [("B", [TyLookup.ok "LV", TyLookup.ok "LV", TyLookup.ok "LV", TyLookup.ok "LV"])]
    "A" [TyLookup.ok "HV"] (by decide) (by decide) (by decide)

/-- C3, counterexample: with queues `{"": [deadline 5], "E0": [deadline 100,
deadline 100]}` at time 0, the queue with the smallest remaining time is
`""` (5 against 100), but `edf_pick_edge` returns "E0": the winning
empty-string id is falsy, so the length fallback overrides the choice. -/
theorem edf_min_remaining_cex :
    remainsOf 0 [DlLookup.val 5] = [5] ∧
    remainsOf 0 [DlLookup.val 100, DlLookup.val 100] = [100, 100] ∧
    edf_pick_edge [("", [DlLookup.val 5]), ("E0", [DlLookup.val 100, DlLookup.val 100])] 0 =
      Except.ok "E0" :=
  ⟨rfl, rfl, by decide⟩

/-- C3 (amended): when every edge identifier is non-empty, no vehicle
carries an unparseable non-empty deadline string, and some queue has a
deadline-bearing vehicle, `edf_pick_edge` returns the first queue (in
traversal order) whose minimum remaining time is globally minimal: the
returned queue attains remaining time `m`, every deadline-bearing vehicle
of every queue has remaining time ≥ `m`, and every strictly earlier queue's
deadline-bearing vehicles all exceed `m`. -/
theorem edf_min_remaining_amended (ev : EdgeMapEDF) (t : Int)
    (hids : ∀ p ∈ ev, p.1 ≠ "")
    (hnb : ∀ p ∈ ev, ∀ v ∈ p.2, v ≠ DlLookup.bad)
    (hsome : ∃ p ∈ ev, remainsOf t p.2 ≠ []) :
    ∃ l₁ e vs l₂ m, ev = l₁ ++ (e, vs) :: l₂ ∧ edf_pick_edge ev t = Except.ok e ∧
      m ∈ remainsOf t vs ∧ (∀ x ∈ remainsOf t vs, m ≤ x) ∧
      (∀ p ∈ ev, ∀ x ∈ remainsOf t p.2, m ≤ x) ∧
      (∀ p ∈ l₁, ∀ x ∈ remainsOf t p.2, m < x) := by
  have hb := edfLoop_eq_edfLoopOk t ev none hnb
  simp only [Option.map_none'] at hb
  rcases edfLoopOk_spec t ev with ⟨h1, h2⟩ |
    ⟨l₁, e, vs, l₂, m, hsplit, hres, hm, hearlier, hall⟩
  · obtain ⟨p, hp, hrem⟩ := hsome
    exact absurd ((pyMinRemain_none_iff t p.2).mp (h2 p hp)) hrem
  · rw [hres] at hb
    simp only [Option.map_some'] at hb
    have hmem : (e, vs) ∈ ev := by rw [hsplit]; simp
    have he : e ≠ "" := hids (e, vs) hmem
    have hedf : edf_pick_edge ev t = Except.ok e := by
      simp only [edf_pick_edge, hb]
      rw [if_neg he]
    obtain ⟨hmmem, hmmin⟩ := pyMinRemain_min t vs m hm
    refine ⟨l₁, e, vs, l₂, m, hsplit, hedf, hmmem, hmmin, ?_, ?_⟩
    · intro p hp x hx
      cases hpm : pyMinRemain t p.2 none with
      | none =>
        rw [pyMinRemain_none_iff] at hpm
        rw [hpm] at hx
        exact absurd hx (by simp)
      | some m' =>
        obtain ⟨-, hmin'⟩ := pyMinRemain_min t p.2 m' hpm
        exact le_trans (hall p hp m' hpm) (hmin' x hx)
    · intro p hp x hx
      cases hpm : pyMinRemain t p.2 none with
      | none =>
        rw [pyMinRemain_none_iff] at hpm
        rw [hpm] at hx
        exact absurd hx (by simp)
      | some m' =>
        obtain ⟨-, hmin'⟩ := pyMinRemain_min t p.2 m' hpm
        exact lt_of_lt_of_le (hearlier p hp m' hpm) (hmin' x hx)

theorem edf_min_remaining_amended_witness :
    edf_pick_edge [("A", [DlLookup.val 55]), ("B", [DlLookup.val 200])] 50 =
      Except.ok "A" := by
  obtain ⟨l₁, e, vs, l₂, m, hsplit, hok, hmmem, -, -, hearlier⟩ :=
    edf_min_remaining_amended [("A", [DlLookup.val 55]), ("B", [DlLookup.val 200])] 50
      (by decide) (by decide) ⟨("A", [DlLookup.val 55]), by simp, by decide⟩
  cases l₁ with
  | nil =>
    simp only [List.nil_append, List.cons.injEq, Prod.mk.injEq] at hsplit
    obtain ⟨⟨he, -⟩, -⟩ := hsplit
    rw [← he] at hok
    exact hok
  | cons q l₁' =>
    simp only [List.cons_append, List.cons.injEq] at hsplit
    obtain ⟨hq, hrest⟩ := hsplit
    cases l₁' with
    | nil =>
      simp only [List.nil_append, List.cons.injEq, Prod.mk.injEq] at hrest
      obtain ⟨⟨-, hvs⟩, -⟩ := hrest
      have hm5 : m < 5 := by
        have := hearlier q (List.mem_cons_self _ _)
        rw [← hq] at this
        exact this 5 (by decide)
      have hm150 : m = 150 := by
        rw [← hvs, show remainsOf 50 [DlLookup.val 200] = [150] from by decide] at hmmem
        simpa using hmmem
      omega
    | cons q2 l₁'' =>
      simp only [List.cons_append, List.cons.injEq] at hrest
      obtain ⟨-, hnil⟩ := hrest
      exact absurd (List.append_eq_nil.mp hnil.symm).2 (List.cons_ne_nil _ _)

/-- C8, counterexample: queues `""` and "B" have the identical score 301 and
`""` comes first, so the claim requires `""` to be selected; `fp_pick_edge`
returns "C" (score 102) instead, because the winning empty-string id is
falsy and the length fallback runs. -/
theorem fp_tie_break_cex :
    fpScore [TyLookup.ok "HV"] = 301 ∧
    fpScore [TyLookup.ok "LV", TyLookup.ok "LV"] = 102 ∧
    fp_pick_edge [("", [TyLookup.ok "HV"]), ("B", [TyLookup.ok "HV"]),
      ("C", [TyLookup.ok "LV", TyLookup.ok "LV"])] = Except.ok "C" :=
  ⟨by decide, by decide, by decide⟩

/-- C8 (amended): when every edge identifier is non-empty, `fp_pick_edge`
returns the first queue attaining the maximal score, so among queues with
identical (maximal) score the earlier one wins; and on an all-empty
mapping both selectors return the first queue in traversal order, with no
non-emptiness restriction on the identifiers. -/
theorem fp_tie_break_amended :
    (∀ (ev : EdgeMapFP), (∀ p ∈ ev, p.1 ≠ "") → ev ≠ [] →
      ∃ l₁ e vs l₂, ev = l₁ ++ (e, vs) :: l₂ ∧ fp_pick_edge ev = Except.ok e ∧
        (∀ p ∈ l₁, fpScore p.2 < fpScore vs) ∧ (∀ p ∈ ev, fpScore p.2 ≤ fpScore vs)) ∧
    (∀ (ev : EdgeMapFP) (e0 : String) (vs0 : List TyLookup) (rest : EdgeMapFP),
      ev = (e0, vs0) :: rest → (∀ p ∈ ev, p.2 = []) → fp_pick_edge ev = Except.ok e0) ∧
    (∀ (ev : EdgeMapEDF) (t : Int) (e0 : String) (vs0 : List DlLookup) (rest : EdgeMapEDF),
      ev = (e0, vs0) :: rest → (∀ p ∈ ev, p.2 = []) → edf_pick_edge ev t = Except.ok e0) := by
  refine ⟨?_, ?_, ?_⟩
  · intro ev hids hne
    obtain ⟨l₁, e, vs, l₂, hsplit, hres, hearlier, hall⟩ := fpLoop_spec ev hne
    have hmem : (e, vs) ∈ ev := by rw [hsplit]; simp
    have he : e ≠ "" := hids (e, vs) hmem
    refine ⟨l₁, e, vs, l₂, hsplit, ?_, hearlier, hall⟩
    simp only [fp_pick_edge, hres]
    rw [if_neg he]
  · intro ev e0 vs0 rest hev hemp
    subst hev
    have hvs0 : vs0 = [] := hemp (e0, vs0) (List.mem_cons_self _ _)
    subst hvs0
    have hrest : ∀ p ∈ rest, p.2 = ([] : List TyLookup) :=
      fun p hp => hemp p (List.mem_cons_of_mem _ hp)
    have hloop : fpLoop ((e0, ([] : List TyLookup)) :: rest) none (-1) = some e0 := by
      rw [show fpLoop ((e0, ([] : List TyLookup)) :: rest) none (-1) =
          fpLoop rest (some e0) (fpScore []) by
        simp only [fpLoop]
        rw [if_pos (by rw [fpScore_nil]; norm_num)]]
      rw [fpScore_nil]
      exact fpLoop_all_empty rest e0 hrest
    have hzeros : ∀ q ∈ rest.map (fun p => (p.1, p.2.length)), q.2 = 0 := by
      intro q hq
      obtain ⟨p, hp, hpq⟩ := List.mem_map.mp hq
      rw [← hpq]
      simp [hrest p hp]
    have hmax : maxByLen ((e0, ([] : List TyLookup)) :: rest) = Except.ok e0 := by
      simp only [maxByLen]
      rw [show List.length ([] : List TyLookup) = 0 from rfl,
        maxByLenLoop_all_zero _ e0 hzeros]
    simp only [fp_pick_edge, hloop]
    by_cases he : e0 = ""
    · rw [if_pos he]; exact hmax
    · rw [if_neg he]
  · intro ev t e0 vs0 rest hev hemp
    subst hev
    have hvs0 : vs0 = [] := hemp (e0, vs0) (List.mem_cons_self _ _)
    subst hvs0
    have hrest : ∀ p ∈ rest, p.2 = ([] : List DlLookup) :=
      fun p hp => hemp p (List.mem_cons_of_mem _ hp)
    have hloop : edfLoop t ((e0, ([] : List DlLookup)) :: rest) none none = Except.ok none := by
      rw [show edfLoop t ((e0, ([] : List DlLookup)) :: rest) none none =
          edfLoop t rest none none from rfl]
      exact edfLoop_all_empty t rest hrest
    have hzeros : ∀ q ∈ rest.map (fun p => (p.1, p.2.length)), q.2 = 0 := by
      intro q hq
      obtain ⟨p, hp, hpq⟩ := List.mem_map.mp hq
      rw [← hpq]
      simp [hrest p hp]
    have hmax : maxByLen ((e0, ([] : List DlLookup)) :: rest) = Except.ok e0 := by
      simp only [maxByLen]
      rw [show List.length ([] : List DlLookup) = 0 from rfl,
        maxByLenLoop_all_zero _ e0 hzeros]
    simp only [edf_pick_edge, hloop]
    exact hmax

theorem fp_tie_break_amended_witness :
    fp_pick_edge [("E0", ([] : List TyLookup)), ("-E1", [])] = Except.ok "E0" ∧
    edf_pick_edge [("E0", ([] : List DlLookup)), ("-E1", [])] 7 = Except.ok "E0" := by
  obtain ⟨-, h2, h3⟩ := fp_tie_break_amended
  exact ⟨h2 _ "E0" [] [("-E1", [])] rfl (by decide),
    h3 _ 7 "E0" [] [("-E1", [])] rfl (by decide)⟩

/-! Lemmas about `check_missed_deadlines`. -/

lemma cm_cons_mem (t : Int) (vs : List LiveVeh) (c : Counts) (am : List String)
    (v : LiveVeh) (h : v.vid ∈ am) :
    check_missed_deadlines t (v :: vs) c am = check_missed_deadlines t vs c am := by
  obtain ⟨vid, dl, ty⟩ := v
  simp only [check_missed_deadlines]
  rw [if_pos h]

lemma cm_cons_count (t : Int) (vs : List LiveVeh) (c : Counts) (am : List String)
    (vid : String) (d : Int) (vt : String) (h : vid ∉ am) (hd : t > d) :
    check_missed_deadlines t (⟨vid, DlLookup.val d, TyLookup.ok vt⟩ :: vs) c am =
      check_missed_deadlines t vs (if Counts.inKeys vt then c.incMissed vt else c)
        (am ++ [vid]) := by
  simp only [check_missed_deadlines]
  rw [if_neg h, if_pos hd]

lemma cmAdds_cons_count (t : Int) (vs : List LiveVeh) (am : List String)
    (vid : String) (d : Int) (vt : String) (h : vid ∉ am) (hd : t > d) :
    cmAdds t am (⟨vid, DlLookup.val d, TyLookup.ok vt⟩ :: vs) =
      vid :: cmAdds t (am ++ [vid]) vs := by
  simp only [cmAdds]
  rw [if_neg h, if_pos hd]

lemma check_missed_am_eq (t : Int) : ∀ (live : List LiveVeh) (c : Counts) (am : List String),
    (check_missed_deadlines t live c am).2 = am ++ cmAdds t am live := by
  intro live
  induction live with
  | nil => intro c am; simp [check_missed_deadlines, cmAdds]
  | cons v vs ih =>
    intro c am
    obtain ⟨vid, dl, ty⟩ := v
    by_cases h : vid ∈ am
    · rw [cm_cons_mem t vs c am _ h,
        show cmAdds t am (⟨vid, dl, ty⟩ :: vs) = cmAdds t am vs by
          simp only [cmAdds]; rw [if_pos h]]
      exact ih c am
    · cases dl with
      | fail =>
        rw [show check_missed_deadlines t (⟨vid, DlLookup.fail, ty⟩ :: vs) c am =
            check_missed_deadlines t vs c am by
          simp only [check_missed_deadlines]; rw [if_neg h],
          show cmAdds t am (⟨vid, DlLookup.fail, ty⟩ :: vs) = cmAdds t am vs by
          simp only [cmAdds]; rw [if_neg h]]
        exact ih c am
      | empty =>
        rw [show check_missed_deadlines t (⟨vid, DlLookup.empty, ty⟩ :: vs) c am =
            check_missed_deadlines t vs c am by
          simp only [check_missed_deadlines]; rw [if_neg h],
          show cmAdds t am (⟨vid, DlLookup.empty, ty⟩ :: vs) = cmAdds t am vs by
          simp only [cmAdds]; rw [if_neg h]]
        exact ih c am
      | bad =>
        rw [show check_missed_deadlines t (⟨vid, DlLookup.bad, ty⟩ :: vs) c am =
            check_missed_deadlines t vs c am by
          simp only [check_missed_deadlines]; rw [if_neg h],
          show cmAdds t am (⟨vid, DlLookup.bad, ty⟩ :: vs) = cmAdds t am vs by
          simp only [cmAdds]; rw [if_neg h]]
        exact ih c am
      | val d =>
        by_cases hd : t > d
        · cases ty with
          | fail =>
            rw [show check_missed_deadlines t (⟨vid, DlLookup.val d, TyLookup.fail⟩ :: vs) c am =
                check_missed_deadlines t vs c am by
              simp only [check_missed_deadlines]; rw [if_neg h, if_pos hd],
              show cmAdds t am (⟨vid, DlLookup.val d, TyLookup.fail⟩ :: vs) = cmAdds t am vs by
              simp only [cmAdds]; rw [if_neg h, if_pos hd]]
            exact ih c am
          | ok vt =>
            rw [cm_cons_count t vs c am vid d vt h hd, cmAdds_cons_count t vs am vid d vt h hd,
              ih _ (am ++ [vid])]
            exact (List.append_cons am vid (cmAdds t (am ++ [vid]) vs)).symm
        · rw [show check_missed_deadlines t (⟨vid, DlLookup.val d, ty⟩ :: vs) c am =
              check_missed_deadlines t vs c am by
            simp only [check_missed_deadlines]; rw [if_neg h, if_neg hd],
            show cmAdds t am (⟨vid, DlLookup.val d, ty⟩ :: vs) = cmAdds t am vs by
            simp only [cmAdds]; rw [if_neg h, if_neg hd]]
          exact ih c am

lemma cmAdds_disjoint (t : Int) : ∀ (live : List LiveVeh) (am : List String),
    ∀ x ∈ cmAdds t am live, x ∉ am := by
  intro live
  induction live with
  | nil => intro am x hx; exact absurd hx (by simp [cmAdds])
  | cons v vs ih =>
    intro am x hx
    obtain ⟨vid, dl, ty⟩ := v
    by_cases h : vid ∈ am
    · rw [show cmAdds t am (⟨vid, dl, ty⟩ :: vs) = cmAdds t am vs by
        simp only [cmAdds]; rw [if_pos h]] at hx
      exact ih am x hx
    · cases dl with
      | fail =>
        rw [show cmAdds t am (⟨vid, DlLookup.fail, ty⟩ :: vs) = cmAdds t am vs by
          simp only [cmAdds]; rw [if_neg h]] at hx
        exact ih am x hx
      | empty =>
        rw [show cmAdds t am (⟨vid, DlLookup.empty, ty⟩ :: vs) = cmAdds t am vs by
          simp only [cmAdds]; rw [if_neg h]] at hx
        exact ih am x hx
      | bad =>
        rw [show cmAdds t am (⟨vid, DlLookup.bad, ty⟩ :: vs) = cmAdds t am vs by
          simp only [cmAdds]; rw [if_neg h]] at hx
        exact ih am x hx
      | val d =>
        by_cases hd : t > d
        · cases ty with
          | fail =>
            rw [show cmAdds t am (⟨vid, DlLookup.val d, TyLookup.fail⟩ :: vs) = cmAdds t am vs by
              simp only [cmAdds]; rw [if_neg h, if_pos hd]] at hx
            exact ih am x hx
          | ok vt =>
            rw [cmAdds_cons_count t vs am vid d vt h hd] at hx
            rcases List.mem_cons.mp hx with hx | hx
            · rw [hx]; exact h
            · intro hxam
              exact ih (am ++ [vid]) x hx (List.mem_append.mpr (Or.inl hxam))
        · rw [show cmAdds t am (⟨vid, DlLookup.val d, ty⟩ :: vs) = cmAdds t am vs by
            simp only [cmAdds]; rw [if_neg h, if_neg hd]] at hx
          exact ih am x hx

lemma cmAdds_nodup (t : Int) : ∀ (live : List LiveVeh) (am : List String),
    (cmAdds t am live).Nodup := by
  intro live
  induction live with
  | nil => intro am; simp [cmAdds]
  | cons v vs ih =>
    intro am
    obtain ⟨vid, dl, ty⟩ := v
    by_cases h : vid ∈ am
    · rw [show cmAdds t am (⟨vid, dl, ty⟩ :: vs) = cmAdds t am vs by
        simp only [cmAdds]; rw [if_pos h]]
      exact ih am
    · cases dl with
      | fail =>
        rw [show cmAdds t am (⟨vid, DlLookup.fail, ty⟩ :: vs) = cmAdds t am vs by
          simp only [cmAdds]; rw [if_neg h]]
        exact ih am
      | empty =>
        rw [show cmAdds t am (⟨vid, DlLookup.empty, ty⟩ :: vs) = cmAdds t am vs by
          simp only [cmAdds]; rw [if_neg h]]
        exact ih am
      | bad =>
        rw [show cmAdds t am (⟨vid, DlLookup.bad, ty⟩ :: vs) = cmAdds t am vs by
          simp only [cmAdds]; rw [if_neg h]]
        exact ih am
      | val d =>
        by_cases hd : t > d
        · cases ty with
          | fail =>
            rw [show cmAdds t am (⟨vid, DlLookup.val d, TyLookup.fail⟩ :: vs) = cmAdds t am vs by
              simp only [cmAdds]; rw [if_neg h, if_pos hd]]
            exact ih am
          | ok vt =>
            rw [cmAdds_cons_count t vs am vid d vt h hd]
            refine List.nodup_cons.mpr ⟨?_, ih (am ++ [vid])⟩
            intro hmem
            exact cmAdds_disjoint t vs (am ++ [vid]) vid hmem
              (List.mem_append.mpr (Or.inr (List.mem_singleton.mpr rfl)))
        · rw [show cmAdds t am (⟨vid, DlLookup.val d, ty⟩ :: vs) = cmAdds t am vs by
            simp only [cmAdds]; rw [if_neg h, if_neg hd]]
          exact ih am

lemma totalMissed_incMissed (c : Counts) (vt : String) :
    (c.incMissed vt).totalMissed ≤ c.totalMissed + 1 := by
  unfold Counts.incMissed Counts.totalMissed
  split
  · simp
    omega
  split
  · simp
    omega
  split
  · simp
    omega
  · simp

lemma check_missed_totalMissed (t : Int) : ∀ (live : List LiveVeh) (c : Counts) (am : List String),
    (check_missed_deadlines t live c am).1.totalMissed ≤
      c.totalMissed + (cmAdds t am live).length := by
  intro live
  induction live with
  | nil => intro c am; simp [check_missed_deadlines, cmAdds]
  | cons v vs ih =>
    intro c am
    obtain ⟨vid, dl, ty⟩ := v
    by_cases h : vid ∈ am
    · rw [cm_cons_mem t vs c am _ h,
        show cmAdds t am (⟨vid, dl, ty⟩ :: vs) = cmAdds t am vs by
          simp only [cmAdds]; rw [if_pos h]]
      exact ih c am
    · cases dl with
      | fail =>
        rw [show check_missed_deadlines t (⟨vid, DlLookup.fail, ty⟩ :: vs) c am =
            check_missed_deadlines t vs c am by
          simp only [check_missed_deadlines]; rw [if_neg h],
          show cmAdds t am (⟨vid, DlLookup.fail, ty⟩ :: vs) = cmAdds t am vs by
          simp only [cmAdds]; rw [if_neg h]]
        exact ih c am
      | empty =>
        rw [show check_missed_deadlines t (⟨vid, DlLookup.empty, ty⟩ :: vs) c am =
            check_missed_deadlines t vs c am by
          simp only [check_missed_deadlines]; rw [if_neg h],
          show cmAdds t am (⟨vid, DlLookup.empty, ty⟩ :: vs) = cmAdds t am vs by
          simp only [cmAdds]; rw [if_neg h]]
        exact ih c am
      | bad =>
        rw [show check_missed_deadlines t (⟨vid, DlLookup.bad, ty⟩ :: vs) c am =
            check_missed_deadlines t vs c am by
          simp only [check_missed_deadlines]; rw [if_neg h],
          show cmAdds t am (⟨vid, DlLookup.bad, ty⟩ :: vs) = cmAdds t am vs by
          simp only [cmAdds]; rw [if_neg h]]
        exact ih c am
      | val d =>
        by_cases hd : t > d
        · cases ty with
          | fail =>
            rw [show check_missed_deadlines t (⟨vid, DlLookup.val d, TyLookup.fail⟩ :: vs) c am =
                check_missed_deadlines t vs c am by
              simp only [check_missed_deadlines]; rw [if_neg h, if_pos hd],
              show cmAdds t am (⟨vid, DlLookup.val d, TyLookup.fail⟩ :: vs) = cmAdds t am vs by
              simp only [cmAdds]; rw [if_neg h, if_pos hd]]
            exact ih c am
          | ok vt =>
            rw [cm_cons_count t vs c am vid d vt h hd, cmAdds_cons_count t vs am vid d vt h hd]
            have hc : (if Counts.inKeys vt then c.incMissed vt else c).totalMissed ≤
                c.totalMissed + 1 := by
              by_cases hk : Counts.inKeys vt
              · rw [if_pos hk]; exact totalMissed_incMissed c vt
              · rw [if_neg hk]; exact Nat.le_succ _
            calc (check_missed_deadlines t vs
                    (if Counts.inKeys vt then c.incMissed vt else c) (am ++ [vid])).1.totalMissed
                ≤ (if Counts.inKeys vt then c.incMissed vt else c).totalMissed +
                    (cmAdds t (am ++ [vid]) vs).length := ih _ _
              _ ≤ c.totalMissed + 1 + (cmAdds t (am ++ [vid]) vs).length :=
                  Nat.add_le_add_right hc _
              _ = c.totalMissed + (vid :: cmAdds t (am ++ [vid]) vs).length := by
                  simp [List.length_cons]
                  omega
        · rw [show check_missed_deadlines t (⟨vid, DlLookup.val d, ty⟩ :: vs) c am =
              check_missed_deadlines t vs c am by
            simp only [check_missed_deadlines]; rw [if_neg h, if_neg hd],
            show cmAdds t am (⟨vid, DlLookup.val d, ty⟩ :: vs) = cmAdds t am vs by
            simp only [cmAdds]; rw [if_neg h, if_neg hd]]
          exact ih c am

lemma cmRun_am_eq : ∀ (calls : List (Int × List LiveVeh)) (c : Counts) (am : List String),
    (cmRun calls c am).2 = am ++ cmRunAdds calls am := by
  intro calls
  induction calls with
  | nil => intro c am; simp [cmRun, cmRunAdds]
  | cons call calls ih =>
    intro c am
    obtain ⟨t, live⟩ := call
    rw [show cmRun ((t, live) :: calls) c am =
        cmRun calls (check_missed_deadlines t live c am).1
          (check_missed_deadlines t live c am).2 from rfl,
      ih _ _, check_missed_am_eq t live c am,
      show cmRunAdds ((t, live) :: calls) am =
        cmAdds t am live ++ cmRunAdds calls (am ++ cmAdds t am live) from rfl,
      List.append_assoc]

lemma cmRunAdds_nodup : ∀ (calls : List (Int × List LiveVeh)) (am : List String),
    am.Nodup → (am ++ cmRunAdds calls am).Nodup := by
  intro calls
  induction calls with
  | nil => intro am h; simpa [cmRunAdds] using h
  | cons call calls ih =>
    intro am h
    obtain ⟨t, live⟩ := call
    have hnd : (am ++ cmAdds t am live).Nodup := by
      rw [List.nodup_append]
      exact ⟨h, cmAdds_nodup t live am,
        fun x hx hx2 => cmAdds_disjoint t live am x hx2 hx⟩
    rw [show cmRunAdds ((t, live) :: calls) am =
        cmAdds t am live ++ cmRunAdds calls (am ++ cmAdds t am live) from rfl,
      ← List.append_assoc]
    exact ih (am ++ cmAdds t am live) hnd

/-- C5: across any sequence of miss-check calls, the already-missed set only
grows (each call's result is the previous set extended at the end), its
members stay pairwise distinct (so each vehicle identifier enters it at
most once, ever), a vehicle whose identifier is already in the set is
skipped entirely by a subsequent call (removing it from the live list
changes nothing), and one call increments the missed counters in total by
at most the number of newly recorded vehicles — hence on account of any
single vehicle the missed counter of its class is incremented at most once
during a run. -/
theorem missed_at_most_once (calls : List (Int × List LiveVeh)) (t : Int)
    (live : List LiveVeh) (c c' : Counts) (am : List String) (v : LiveVeh)
    (hnd : am.Nodup) (hv : v.vid ∈ am) :
    (cmRun calls c am).2 = am ++ cmRunAdds calls am ∧
    ((cmRun calls c am).2).Nodup ∧
    check_missed_deadlines t (v :: live) c' am = check_missed_deadlines t live c' am ∧
    (check_missed_deadlines t live c' am).1.totalMissed ≤
      c'.totalMissed + (cmAdds t am live).length := by
  refine ⟨cmRun_am_eq calls c am, ?_, cm_cons_mem t live c' am v hv,
    check_missed_totalMissed t live c' am⟩
  rw [cmRun_am_eq]
  exact cmRunAdds_nodup calls am hnd

theorem missed_at_most_once_witness :
    (cmRun [((10 : Int), [⟨"a", DlLookup.val 3, TyLookup.ok "HV"⟩])] initCounts ["z"]).2 =
      ["z"] ++ cmRunAdds [((10 : Int), [⟨"a", DlLookup.val 3, TyLookup.ok "HV"⟩])] ["z"] ∧
    ((cmRun [((10 : Int), [⟨"a", DlLookup.val 3, TyLookup.ok "HV"⟩])] initCounts ["z"]).2).Nodup ∧
    check_missed_deadlines 10
      (⟨"z", DlLookup.val 0, TyLookup.ok "HV"⟩ :: [⟨"a", DlLookup.val 3, TyLookup.ok "HV"⟩])
      initCounts ["z"] =
      check_missed_deadlines 10 [⟨"a", DlLookup.val 3, TyLookup.ok "HV"⟩] initCounts ["z"] ∧
    (check_missed_deadlines 10 [⟨"a", DlLookup.val 3, TyLookup.ok "HV"⟩]
      initCounts ["z"]).1.totalMissed ≤
      initCounts.totalMissed +
        (cmAdds 10 ["z"] [⟨"a", DlLookup.val 3, TyLookup.ok "HV"⟩]).length :=
  missed_at_most_once [((10 : Int), [⟨"a", DlLookup.val 3, TyLookup.ok "HV"⟩])] 10
    [⟨"a", DlLookup.val 3, TyLookup.ok "HV"⟩] initCounts initCounts ["z"]
    ⟨"z", DlLookup.val 0, TyLookup.ok "HV"⟩ (by simp) (by simp)

/-! Lemmas about the arbitration loop of `run_simulation`. -/

lemma simRunFrom_succ_ok (method : String) (mg : Nat) (O : Oracle) (s0 : SimSt) (n : Nat)
    (s : SimSt) (h : simRunFrom method mg O s0 n = .ok s) :
    simRunFrom method mg O s0 (n + 1) = simTick method mg O n s := by
  show (match simRunFrom method mg O s0 n with
    | Except.error s => Except.error s
    | Except.ok s => simTick method mg O n s) = _
  rw [h]

lemma simRunFrom_error_frozen (method : String) (mg : Nat) (O : Oracle) (s0 : SimSt) (n : Nat)
    (s : SimSt) (h : simRunFrom method mg O s0 n = .error s) :
    ∀ m, simRunFrom method mg O s0 (n + m) = .error s := by
  intro m
  induction m with
  | zero => simpa using h
  | succ m ih =>
    show (match simRunFrom method mg O s0 (n + m) with
      | Except.error s => Except.error s
      | Except.ok s => simTick method mg O (n + m) s) = _
    rw [ih]

lemma simTick_not_due (method : String) (mg : Nat) (O : Oracle) (step : Nat) (s : SimSt)
    (h : dueCheck mg s = false) :
    ∃ s', simTick method mg O step s = .ok s' ∧
      s'.current_phase_edge = s.current_phase_edge ∧
      s'.time_in_phase = s.time_in_phase + 1 := by
  simp only [simTick, h]
  exact ⟨_, rfl, rfl, rfl⟩

lemma simTick_due_ok (method : String) (mg : Nat) (O : Oracle) (step : Nat) (s s' : SimSt)
    (h : dueCheck mg s = true)
    (hok : simTick method mg O step s = .ok s') :
    s'.time_in_phase = 1 ∧ ∃ e, s'.current_phase_edge = some e := by
  simp only [simTick, h, if_true] at hok
  cases hpick : pickEdge method O step (spawn_vehicles O step s.counts s.engine).2 with
  | error err =>
    rw [hpick] at hok
    exact absurd hok (by simp)
  | ok e =>
    rw [hpick] at hok
    injection hok with hok
    rw [← hok]
    exact ⟨rfl, e, rfl⟩

/-- C2: in every run of the arbitration loop (from any starting state, for
any minimum-green constant `mg ≥ 0`): a decision is due whenever the
currently-served queue is unset (so the first tick always selects), and
after a decision is committed at tick `t`, no new selection occurs at tick
`t + k` for `1 ≤ k < mg` (ticks-in-phase is `k < mg` there), while at tick
`t + mg` (ticks-in-phase `mg`) a new decision is made. -/
theorem min_green_no_early_decision (method : String) (mg : Nat) (O : Oracle) (s0 : SimSt)
    (t k : Nat) (hdec : decisionMade method mg O s0 t = true)
    (hok1 : runOk method mg O s0 (t + 1) = true) :
    (∀ s : SimSt, s.current_phase_edge = none → dueCheck mg s = true) ∧
    (1 ≤ k → k < mg → decisionMade method mg O s0 (t + k) = false) ∧
    (1 ≤ mg → decisionMade method mg O s0 (t + mg) = true) := by
  have hfirst : ∀ s : SimSt, s.current_phase_edge = none → dueCheck mg s = true := by
    intro s hs
    simp [dueCheck, hs]
  cases hrun : simRunFrom method mg O s0 t with
  | error s =>
    unfold decisionMade at hdec
    rw [hrun] at hdec
    exact absurd hdec (by simp)
  | ok s =>
    unfold decisionMade at hdec
    rw [hrun] at hdec
    cases hrun1 : simRunFrom method mg O s0 (t + 1) with
    | error s1 =>
      unfold runOk at hok1
      rw [hrun1] at hok1
      exact absurd hok1 (by simp)
    | ok s1 =>
      have htick : simTick method mg O t s = .ok s1 := by
        rw [← simRunFrom_succ_ok method mg O s0 t s hrun]
        exact hrun1
      obtain ⟨htip1, e1, hcpe1⟩ := simTick_due_ok method mg O t s s1 hdec htick
      have haux : ∀ j, j + 1 ≤ mg →
          ∃ sj, simRunFrom method mg O s0 (t + 1 + j) = .ok sj ∧
            (∃ ej, sj.current_phase_edge = some ej) ∧ sj.time_in_phase = 1 + j := by
        intro j
        induction j with
        | zero =>
          intro _
          exact ⟨s1, by simpa using hrun1, ⟨e1, hcpe1⟩, by rw [htip1]⟩
        | succ j ih =>
          intro hj
          obtain ⟨sj, hsj, ⟨ej, hcej⟩, htj⟩ := ih (by omega)
          have hdcj : dueCheck mg sj = false := by
            simp only [dueCheck, hcej, Option.isNone_some, Bool.false_or,
              decide_eq_false_iff_not]
            omega
          obtain ⟨sj1, hsj1, hc1, ht1⟩ := simTick_not_due method mg O (t + 1 + j) sj hdcj
          refine ⟨sj1, ?_, ⟨ej, by rw [hc1, hcej]⟩, by rw [ht1, htj]; omega⟩
          rw [show t + 1 + (j + 1) = t + 1 + j + 1 by omega,
            simRunFrom_succ_ok method mg O s0 (t + 1 + j) sj hsj, hsj1]
      refine ⟨hfirst, ?_, ?_⟩
      · intro hk1 hkm
        obtain ⟨sk, hsk, ⟨ek, hcek⟩, htk⟩ := haux (k - 1) (by omega)
        rw [show t + 1 + (k - 1) = t + k by omega] at hsk
        unfold decisionMade
        rw [hsk]
        simp only [dueCheck, hcek, Option.isNone_some, Bool.false_or,
          decide_eq_false_iff_not]
        omega
      · intro hmg
        obtain ⟨sk, hsk, ⟨ek, hcek⟩, htk⟩ := haux (mg - 1) (by omega)
        rw [show t + 1 + (mg - 1) = t + mg by omega] at hsk
        unfold decisionMade
        rw [hsk]
        simp only [dueCheck, hcek, Option.isNone_some, Bool.false_or, decide_eq_true_eq]
        omega

theorem min_green_no_early_decision_witness :
    decisionMade "edf" 8 oracleIdle ⟨some "E0", 6, initCounts, [], [], []⟩ 10 = true ∧
    decisionMade "edf" 8 oracleIdle ⟨some "E0", 6, initCounts, [], [], []⟩ 17 = false ∧
    decisionMade "edf" 8 oracleIdle ⟨some "E0", 6, initCounts, [], [], []⟩ 18 = true := by
  obtain ⟨-, h2, h3⟩ := min_green_no_early_decision "edf" 8 oracleIdle
    ⟨some "E0", 6, initCounts, [], [], []⟩ 10 7 (by decide) (by decide)
  exact ⟨by decide, h2 (by decide) (by decide), h3 (by decide)⟩

/-- C7, counterexample: with an unknown discipline name "foo", the run is
already dead after the first tick, but that tick's spawn wave and counter
updates have taken place before the abort: 4 vehicles were admitted and the
LV spawned counter reads 4, contradicting "aborts before the main tick loop
starts, before any vehicle spawn or counter update". -/
theorem unknown_method_spawns_cex :
    runOk "foo" 8 oracleBusy initSt 1 = false ∧
    (stateAtFrom "foo" 8 oracleBusy initSt 1).counts.lv.spawned = 4 ∧
    (stateAtFrom "foo" 8 oracleBusy initSt 1).engine.length = 4 := by
  decide

/-- C7 (amended): with a discipline name other than "edf"/"fixed" the run
raises `ValueError` at the first decision check, i.e. during tick 0 — after
that tick's spawn and miss-check have updated the counters and the engine,
and before any phase commit (the abort state logs no phases and no served
queue) — and stays aborted in that state forever. -/
theorem unknown_method_abort_amended (method : String) (mg : Nat) (O : Oracle)
    (h1 : method ≠ "edf") (h2 : method ≠ "fixed") :
    simRunFrom method mg O initSt 1 = Except.error (abortStateOf O) ∧
    (abortStateOf O).phases = [] ∧
    (abortStateOf O).current_phase_edge = none ∧
    ∀ n, 1 ≤ n → simRunFrom method mg O initSt n = Except.error (abortStateOf O) := by
  have hpick : pickEdge method O 0 (spawn_vehicles O 0 initCounts []).2 =
      Except.error PyErr.valueError := by
    unfold pickEdge
    rw [if_neg h1, if_neg h2]
  have hbase : simRunFrom method mg O initSt 1 = Except.error (abortStateOf O) := by
    have hstep : simRunFrom method mg O initSt 1 = simTick method mg O 0 initSt := rfl
    rw [hstep]
    have hdc : dueCheck mg initSt = true := rfl
    simp only [simTick, hdc, if_true]
    rw [show initSt.counts = initCounts from rfl,
      show initSt.engine = ([] : List EngVeh) from rfl, hpick]
    rfl
  refine ⟨hbase, rfl, rfl, ?_⟩
  intro n hn
  have hfr := simRunFrom_error_frozen method mg O initSt 1 _ hbase (n - 1)
  rw [show 1 + (n - 1) = n by omega] at hfr
  exact hfr

theorem unknown_method_abort_witness :
    simRunFrom "foo" 8 oracleBusy initSt 5 = Except.error (abortStateOf oracleBusy) ∧
    (abortStateOf oracleBusy).phases = [] := by
  obtain ⟨-, hph, -, hall⟩ := unknown_method_abort_amended "foo" 8 oracleBusy
    (by decide) (by decide)
  exact ⟨hall 5 (by omega), hph⟩

/-! Counter bookkeeping lemmas for the run invariant. -/

lemma inKeys_str (w : VType) : Counts.inKeys w.str = true := by
  cases w <;> rfl

lemma incSpawned_spawnedOf (c : Counts) (w vt : VType) :
    (c.incSpawned w.str).spawnedOf vt = c.spawnedOf vt + (if w = vt then 1 else 0) := by
  cases w <;> cases vt <;>
    simp [VType.str, Counts.incSpawned, Counts.spawnedOf]

lemma incSpawned_missedOf (c : Counts) (w vt : VType) :
    (c.incSpawned w.str).missedOf vt = c.missedOf vt := by
  cases w <;> cases vt <;>
    simp [VType.str, Counts.incSpawned, Counts.missedOf]

lemma incMissed_missedOf (c : Counts) (w vt : VType) :
    (c.incMissed w.str).missedOf vt = c.missedOf vt + (if w = vt then 1 else 0) := by
  cases w <;> cases vt <;>
    simp [VType.str, Counts.incMissed, Counts.missedOf]

lemma incMissed_spawnedOf_any (c : Counts) (k : String) (vt : VType) :
    (c.incMissed k).spawnedOf vt = c.spawnedOf vt := by
  unfold Counts.incMissed
  split
  · cases vt <;> rfl
  · split
    · cases vt <;> rfl
    · split
      · cases vt <;> rfl
      · rfl

lemma incMissed_missedOf_le_any (c : Counts) (k : String) (vt : VType) :
    c.missedOf vt ≤ (c.incMissed k).missedOf vt := by
  unfold Counts.incMissed
  split
  · cases vt <;> simp only [Counts.missedOf] <;> omega
  · split
    · cases vt <;> simp only [Counts.missedOf] <;> omega
    · split
      · cases vt <;> simp only [Counts.missedOf] <;> omega
      · exact le_refl _

lemma countClass_append_one (vt : VType) (eng : List EngVeh) (v : EngVeh) :
    countClass vt (eng ++ [v]) = countClass vt eng + (if v.vt = vt then 1 else 0) := by
  unfold countClass
  rw [List.countP_append, List.countP_cons]
  simp only [List.countP_nil]
  by_cases h : v.vt = vt <;> simp [h]

lemma countClassMissed_append_one (vt : VType) (am : List String) (eng : List EngVeh)
    (v : EngVeh) (h : v.vid ∉ am) :
    countClassMissed vt am (eng ++ [v]) = countClassMissed vt am eng := by
  unfold countClassMissed
  rw [List.countP_append, List.countP_cons]
  simp [h]

lemma countClassMissed_am_extend (vt : VType) (am : List String) (vid : String) :
    ∀ (eng : List EngVeh), (∀ u ∈ eng, u.vid ≠ vid) →
    countClassMissed vt (am ++ [vid]) eng = countClassMissed vt am eng := by
  intro eng
  induction eng with
  | nil => intro _; rfl
  | cons u rest ih =>
    intro h
    unfold countClassMissed at ih ⊢
    rw [List.countP_cons, List.countP_cons,
      ih (fun u hu => h u (List.mem_cons_of_mem _ hu))]
    have hne := h u (List.mem_cons_self _ _)
    have hmem : (decide (u.vid ∈ am ++ [vid])) = decide (u.vid ∈ am) := by
      by_cases hm : u.vid ∈ am
      · simp [hm]
      · simp [hm, List.mem_append, hne]
    rw [hmem]

lemma countClassMissed_append_mem (vt : VType) (am : List String) (w : EngVeh) :
    ∀ (eng : List EngVeh), (eng.map EngVeh.vid).Nodup → w ∈ eng → w.vid ∉ am →
    countClassMissed vt (am ++ [w.vid]) eng =
      countClassMissed vt am eng + (if w.vt = vt then 1 else 0) := by
  intro eng
  induction eng with
  | nil => intro _ hw _; exact absurd hw (by simp)
  | cons u rest ih =>
    intro hnd hw hnam
    rw [List.map_cons, List.nodup_cons] at hnd
    obtain ⟨hnotin, hnd2⟩ := hnd
    rcases List.mem_cons.mp hw with hw | hw
    · subst hw
      have hrest : countClassMissed vt (am ++ [w.vid]) rest = countClassMissed vt am rest :=
        countClassMissed_am_extend vt am w.vid rest
          (fun u hu heq => hnotin (heq ▸ List.mem_map_of_mem EngVeh.vid hu))
      unfold countClassMissed at hrest ⊢
      rw [List.countP_cons, List.countP_cons, hrest]
      have h1 : (decide (w.vid ∈ am ++ [w.vid])) = true := by
        simp
      have h2 : (decide (w.vid ∈ am)) = false := by
        simp [hnam]
      rw [h1, h2]
      by_cases hvt : w.vt = vt <;> simp [hvt]
    · have hne : u.vid ≠ w.vid :=
        fun heq => hnotin (heq ▸ List.mem_map_of_mem EngVeh.vid hw)
      have hih := ih hnd2 hw hnam
      unfold countClassMissed at hih ⊢
      rw [List.countP_cons, List.countP_cons, hih]
      have hmem : (decide (u.vid ∈ am ++ [w.vid])) = decide (u.vid ∈ am) := by
        by_cases hm : u.vid ∈ am
        · simp [hm]
        · simp [hm, List.mem_append, hne]
      rw [hmem]
      omega

lemma countClassMissed_le_countClass (vt : VType) (am : List String) (eng : List EngVeh) :
    countClassMissed vt am eng ≤ countClass vt eng := by
  unfold countClassMissed countClass
  apply List.countP_mono_left
  intro v _ h
  simp only [Bool.and_eq_true] at h
  exact h.1

lemma liveOf_consistent (O : Oracle) (step : Nat) (eng : List EngVeh) :
    ∀ v ∈ liveOf O step eng, engConsistent eng v := by
  intro v hv
  unfold liveOf at hv
  obtain ⟨w, hw, hwv⟩ := List.mem_map.mp hv
  have hw2 : w ∈ eng := (List.mem_filter.mp hw).1
  exact ⟨w, hw2, by rw [← hwv], by rw [← hwv]⟩

lemma append_fresh_inv (c : Counts) (eng : List EngVeh) (am : List String) (v : EngVeh)
    (vt0 : VType) (hvt : v.vt = vt0)
    (hfresh : v.vid ∉ eng.map EngVeh.vid)
    (h1 : ∀ vt, c.spawnedOf vt = countClass vt eng)
    (h2 : (eng.map EngVeh.vid).Nodup)
    (h4 : ∀ vid ∈ am, vid ∈ eng.map EngVeh.vid)
    (h5 : ∀ vt, c.missedOf vt = countClassMissed vt am eng) :
    (∀ vt, (c.incSpawned vt0.str).spawnedOf vt = countClass vt (eng ++ [v])) ∧
    (((eng ++ [v]).map EngVeh.vid).Nodup) ∧
    (∀ vid ∈ am, vid ∈ (eng ++ [v]).map EngVeh.vid) ∧
    (∀ vt, (c.incSpawned vt0.str).missedOf vt = countClassMissed vt am (eng ++ [v])) := by
  refine ⟨?_, ?_, ?_, ?_⟩
  · intro vt
    rw [incSpawned_spawnedOf c vt0 vt, h1 vt, countClass_append_one, hvt]
  · rw [List.map_append, List.nodup_append]
    refine ⟨h2, by simp, ?_⟩
    intro x hx hx2
    simp at hx2
    rw [hx2] at hx
    exact hfresh hx
  · intro vid hvid
    rw [List.map_append]
    exact List.mem_append.mpr (Or.inl (h4 vid hvid))
  · intro vt
    rw [incSpawned_missedOf, h5 vt,
      countClassMissed_append_one vt am eng v (fun hmem => hfresh (h4 v.vid hmem))]

lemma spawnOne_inv (O : Oracle) (step : Nat) (am : List String) (st : Counts × List EngVeh)
    (edge : String)
    (h1 : ∀ vt, st.1.spawnedOf vt = countClass vt st.2)
    (h2 : (st.2.map EngVeh.vid).Nodup)
    (h4 : ∀ vid ∈ am, vid ∈ st.2.map EngVeh.vid)
    (h5 : ∀ vt, st.1.missedOf vt = countClassMissed vt am st.2) :
    (∀ vt, (spawnOne O step st edge).1.spawnedOf vt =
      countClass vt (spawnOne O step st edge).2) ∧
    (((spawnOne O step st edge).2.map EngVeh.vid).Nodup) ∧
    (∀ vid ∈ am, vid ∈ (spawnOne O step st edge).2.map EngVeh.vid) ∧
    (∀ vt, (spawnOne O step st edge).1.missedOf vt =
      countClassMissed vt am (spawnOne O step st edge).2) := by
  unfold spawnOne
  by_cases hg : mkVid edge step ∈ st.2.map EngVeh.vid ∨ O.addOk step edge = false
  · rw [if_pos hg]
    exact ⟨h1, h2, h4, h5⟩
  · rw [if_neg hg]
    push_neg at hg
    obtain ⟨hfresh, -⟩ := hg
    by_cases hdl : O.setDlOk step edge
    · rw [if_pos hdl]
      exact append_fresh_inv st.1 st.2 am
        ⟨mkVid edge step, O.vtypeAt step edge, some ((step : Int) + (O.vtypeAt step edge).offset)⟩
        (O.vtypeAt step edge) rfl hfresh h1 h2 h4 h5
    · rw [if_neg hdl]
      exact append_fresh_inv st.1 st.2 am
        ⟨mkVid edge step, O.vtypeAt step edge, none⟩
        (O.vtypeAt step edge) rfl hfresh h1 h2 h4 h5

lemma spawnFold_inv (O : Oracle) (step : Nat) (am : List String) :
    ∀ (edges : List String) (st : Counts × List EngVeh),
    (∀ vt, st.1.spawnedOf vt = countClass vt st.2) →
    ((st.2.map EngVeh.vid).Nodup) →
    (∀ vid ∈ am, vid ∈ st.2.map EngVeh.vid) →
    (∀ vt, st.1.missedOf vt = countClassMissed vt am st.2) →
    (∀ vt, (edges.foldl (spawnOne O step) st).1.spawnedOf vt =
      countClass vt (edges.foldl (spawnOne O step) st).2) ∧
    (((edges.foldl (spawnOne O step) st).2.map EngVeh.vid).Nodup) ∧
    (∀ vid ∈ am, vid ∈ (edges.foldl (spawnOne O step) st).2.map EngVeh.vid) ∧
    (∀ vt, (edges.foldl (spawnOne O step) st).1.missedOf vt =
      countClassMissed vt am (edges.foldl (spawnOne O step) st).2) := by
  intro edges
  induction edges with
  | nil => intro st h1 h2 h4 h5; exact ⟨h1, h2, h4, h5⟩
  | cons e rest ih =>
    intro st h1 h2 h4 h5
    obtain ⟨g1, g2, g4, g5⟩ := spawnOne_inv O step am st e h1 h2 h4 h5
    exact ih (spawnOne O step st e) g1 g2 g4 g5

lemma spawn_vehicles_inv (O : Oracle) (step : Nat) (am : List String) (c : Counts)
    (eng : List EngVeh)
    (h1 : ∀ vt, c.spawnedOf vt = countClass vt eng)
    (h2 : (eng.map EngVeh.vid).Nodup)
    (h4 : ∀ vid ∈ am, vid ∈ eng.map EngVeh.vid)
    (h5 : ∀ vt, c.missedOf vt = countClassMissed vt am eng) :
    (∀ vt, (spawn_vehicles O step c eng).1.spawnedOf vt =
      countClass vt (spawn_vehicles O step c eng).2) ∧
    (((spawn_vehicles O step c eng).2.map EngVeh.vid).Nodup) ∧
    (∀ vid ∈ am, vid ∈ (spawn_vehicles O step c eng).2.map EngVeh.vid) ∧
    (∀ vt, (spawn_vehicles O step c eng).1.missedOf vt =
      countClassMissed vt am (spawn_vehicles O step c eng).2) := by
  unfold spawn_vehicles
  by_cases hm : step % 10 = 0
  · rw [if_pos hm]
    exact spawnFold_inv O step am INCOMING_EDGES (c, eng) h1 h2 h4 h5
  · rw [if_neg hm]
    exact ⟨h1, h2, h4, h5⟩

lemma cm_cons_fail (t : Int) (vs : List LiveVeh) (c : Counts) (am : List String)
    (vid : String) (ty : TyLookup) (h : vid ∉ am) :
    check_missed_deadlines t (⟨vid, DlLookup.fail, ty⟩ :: vs) c am =
      check_missed_deadlines t vs c am := by
  simp only [check_missed_deadlines]
  rw [if_neg h]

lemma cm_cons_empty (t : Int) (vs : List LiveVeh) (c : Counts) (am : List String)
    (vid : String) (ty : TyLookup) (h : vid ∉ am) :
    check_missed_deadlines t (⟨vid, DlLookup.empty, ty⟩ :: vs) c am =
      check_missed_deadlines t vs c am := by
  simp only [check_missed_deadlines]
  rw [if_neg h]

lemma cm_cons_bad (t : Int) (vs : List LiveVeh) (c : Counts) (am : List String)
    (vid : String) (ty : TyLookup) (h : vid ∉ am) :
    check_missed_deadlines t (⟨vid, DlLookup.bad, ty⟩ :: vs) c am =
      check_missed_deadlines t vs c am := by
  simp only [check_missed_deadlines]
  rw [if_neg h]

lemma cm_cons_notdue (t : Int) (vs : List LiveVeh) (c : Counts) (am : List String)
    (vid : String) (d : Int) (ty : TyLookup) (h : vid ∉ am) (hd : ¬t > d) :
    check_missed_deadlines t (⟨vid, DlLookup.val d, ty⟩ :: vs) c am =
      check_missed_deadlines t vs c am := by
  simp only [check_missed_deadlines]
  rw [if_neg h, if_neg hd]

lemma cm_cons_tyfail (t : Int) (vs : List LiveVeh) (c : Counts) (am : List String)
    (vid : String) (d : Int) (h : vid ∉ am) (hd : t > d) :
    check_missed_deadlines t (⟨vid, DlLookup.val d, TyLookup.fail⟩ :: vs) c am =
      check_missed_deadlines t vs c am := by
  simp only [check_missed_deadlines]
  rw [if_neg h, if_pos hd]

lemma check_missed_inv (t : Int) (eng : List EngVeh) :
    ∀ (live : List LiveVeh) (c : Counts) (am : List String),
    (∀ v ∈ live, engConsistent eng v) →
    ((eng.map EngVeh.vid).Nodup) →
    am.Nodup →
    (∀ vid ∈ am, vid ∈ eng.map EngVeh.vid) →
    (∀ vt, c.missedOf vt = countClassMissed vt am eng) →
    ((check_missed_deadlines t live c am).2.Nodup ∧
     (∀ vid ∈ (check_missed_deadlines t live c am).2, vid ∈ eng.map EngVeh.vid) ∧
     (∀ vt, (check_missed_deadlines t live c am).1.missedOf vt =
       countClassMissed vt (check_missed_deadlines t live c am).2 eng) ∧
     (∀ vt, (check_missed_deadlines t live c am).1.spawnedOf vt = c.spawnedOf vt)) := by
  intro live
  induction live with
  | nil => intro c am _ _ h3 h4 h5; exact ⟨h3, h4, h5, fun _ => rfl⟩
  | cons v vs ih =>
    intro c am hcons hnd h3 h4 h5
    have hconsv : engConsistent eng v := hcons v (List.mem_cons_self _ _)
    have hconsvs : ∀ u ∈ vs, engConsistent eng u :=
      fun u hu => hcons u (List.mem_cons_of_mem _ hu)
    obtain ⟨vid, dl, ty⟩ := v
    by_cases h : vid ∈ am
    · rw [cm_cons_mem t vs c am ⟨vid, dl, ty⟩ h]
      exact ih c am hconsvs hnd h3 h4 h5
    · cases dl with
      | fail =>
        rw [cm_cons_fail t vs c am vid ty h]
        exact ih c am hconsvs hnd h3 h4 h5
      | empty =>
        rw [cm_cons_empty t vs c am vid ty h]
        exact ih c am hconsvs hnd h3 h4 h5
      | bad =>
        rw [cm_cons_bad t vs c am vid ty h]
        exact ih c am hconsvs hnd h3 h4 h5
      | val d =>
        by_cases hdd : t > d
        · cases ty with
          | fail =>
            rw [cm_cons_tyfail t vs c am vid d h hdd]
            exact ih c am hconsvs hnd h3 h4 h5
          | ok k =>
            obtain ⟨w, hw, hwvid, hwty⟩ := hconsv
            have hwvid2 : vid = w.vid := hwvid
            have hwty2 : TyLookup.ok k = TyLookup.ok w.vt.str := hwty
            injection hwty2 with hk
            subst hk
            rw [cm_cons_count t vs c am vid d w.vt.str h hdd,
              if_pos (inKeys_str w.vt)]
            have hnd3 : (am ++ [vid]).Nodup := by
              rw [List.nodup_append]
              refine ⟨h3, by simp, ?_⟩
              intro x hx hx2
              simp at hx2
              rw [hx2] at hx
              exact h hx
            have hmem3 : ∀ u ∈ am ++ [vid], u ∈ eng.map EngVeh.vid := by
              intro u hu
              rcases List.mem_append.mp hu with hu | hu
              · exact h4 u hu
              · simp at hu
                rw [hu, hwvid2]
                exact List.mem_map_of_mem EngVeh.vid hw
            have hmiss3 : ∀ vt, (c.incMissed w.vt.str).missedOf vt =
                countClassMissed vt (am ++ [vid]) eng := by
              intro vt
              rw [incMissed_missedOf c w.vt vt, h5 vt, hwvid2,
                countClassMissed_append_mem vt am w eng hnd hw
                  (fun hmem => h (hwvid2 ▸ hmem))]
            obtain ⟨k1, k2, k3, k4⟩ :=
              ih (c.incMissed w.vt.str) (am ++ [vid]) hconsvs hnd hnd3 hmem3 hmiss3
            refine ⟨k1, k2, k3, ?_⟩
            intro vt
            rw [k4 vt, incMissed_spawnedOf_any]
        · rw [cm_cons_notdue t vs c am vid d ty h hdd]
          exact ih c am hconsvs hnd h3 h4 h5

lemma tickState_fields (method : String) (mg : Nat) (O : Oracle) (step : Nat) (s : SimSt) :
    (tickState method mg O step s).counts =
      (check_missed_deadlines (step : Int)
        (liveOf O step (spawn_vehicles O step s.counts s.engine).2)
        (spawn_vehicles O step s.counts s.engine).1 s.already_missed).1 ∧
    (tickState method mg O step s).already_missed =
      (check_missed_deadlines (step : Int)
        (liveOf O step (spawn_vehicles O step s.counts s.engine).2)
        (spawn_vehicles O step s.counts s.engine).1 s.already_missed).2 ∧
    (tickState method mg O step s).engine = (spawn_vehicles O step s.counts s.engine).2 := by
  unfold tickState
  by_cases h : dueCheck mg s = true
  · simp only [simTick, h, if_true]
    cases pickEdge method O step (spawn_vehicles O step s.counts s.engine).2 with
    | error err => exact ⟨rfl, rfl, rfl⟩
    | ok e => exact ⟨rfl, rfl, rfl⟩
  · have h2 : dueCheck mg s = false := by
      cases hd : dueCheck mg s
      · rfl
      · exact absurd hd h
    simp only [simTick, h2]
    exact ⟨rfl, rfl, rfl⟩

lemma tickState_inv (method : String) (mg : Nat) (O : Oracle) (step : Nat) (s : SimSt)
    (hinv : CountsInv s) : CountsInv (tickState method mg O step s) := by
  obtain ⟨h1, h2, h3, h4, h5⟩ := hinv
  obtain ⟨hc, ha, he⟩ := tickState_fields method mg O step s
  obtain ⟨g1, g2, g4, g5⟩ := spawn_vehicles_inv O step s.already_missed s.counts s.engine
    h1 h2 h4 h5
  obtain ⟨k1, k2, k3, k4⟩ := check_missed_inv (step : Int)
    (spawn_vehicles O step s.counts s.engine).2
    (liveOf O step (spawn_vehicles O step s.counts s.engine).2)
    (spawn_vehicles O step s.counts s.engine).1 s.already_missed
    (liveOf_consistent O step _) g2 h3 g4 g5
  refine ⟨?_, ?_, ?_, ?_, ?_⟩
  · intro vt
    rw [hc, he, k4 vt, g1 vt]
  · rw [he]
    exact g2
  · rw [ha]
    exact k1
  · rw [ha, he]
    exact k2
  · intro vt
    rw [hc, ha, he]
    exact k3 vt

lemma spawnOne_counts_mono (O : Oracle) (step : Nat) (st : Counts × List EngVeh)
    (edge : String) (vt : VType) :
    st.1.spawnedOf vt ≤ (spawnOne O step st edge).1.spawnedOf vt ∧
    st.1.missedOf vt = (spawnOne O step st edge).1.missedOf vt := by
  simp only [spawnOne]
  by_cases hg : mkVid edge step ∈ st.2.map EngVeh.vid ∨ O.addOk step edge = false
  · rw [if_pos hg]
    exact ⟨le_refl _, rfl⟩
  · rw [if_neg hg]
    by_cases hdl : O.setDlOk step edge
    · rw [if_pos hdl]
      refine ⟨?_, ?_⟩
      · show st.1.spawnedOf vt ≤ (st.1.incSpawned (O.vtypeAt step edge).str).spawnedOf vt
        rw [incSpawned_spawnedOf]
        exact Nat.le_add_right _ _
      · show st.1.missedOf vt = (st.1.incSpawned (O.vtypeAt step edge).str).missedOf vt
        rw [incSpawned_missedOf]
    · rw [if_neg hdl]
      refine ⟨?_, ?_⟩
      · show st.1.spawnedOf vt ≤ (st.1.incSpawned (O.vtypeAt step edge).str).spawnedOf vt
        rw [incSpawned_spawnedOf]
        exact Nat.le_add_right _ _
      · show st.1.missedOf vt = (st.1.incSpawned (O.vtypeAt step edge).str).missedOf vt
        rw [incSpawned_missedOf]

lemma spawnFold_counts_mono (O : Oracle) (step : Nat) (vt : VType) :
    ∀ (edges : List String) (st : Counts × List EngVeh),
    st.1.spawnedOf vt ≤ (edges.foldl (spawnOne O step) st).1.spawnedOf vt ∧
    st.1.missedOf vt = (edges.foldl (spawnOne O step) st).1.missedOf vt := by
  intro edges
  induction edges with
  | nil => intro st; exact ⟨le_refl _, rfl⟩
  | cons e rest ih =>
    intro st
    obtain ⟨h1, h2⟩ := spawnOne_counts_mono O step st e vt
    obtain ⟨g1, g2⟩ := ih (spawnOne O step st e)
    exact ⟨le_trans h1 g1, h2.trans g2⟩

lemma spawn_vehicles_counts_mono (O : Oracle) (step : Nat) (c : Counts) (eng : List EngVeh)
    (vt : VType) :
    c.spawnedOf vt ≤ (spawn_vehicles O step c eng).1.spawnedOf vt ∧
    c.missedOf vt = (spawn_vehicles O step c eng).1.missedOf vt := by
  unfold spawn_vehicles
  by_cases hm : step % 10 = 0
  · rw [if_pos hm]
    exact spawnFold_counts_mono O step vt INCOMING_EDGES (c, eng)
  · rw [if_neg hm]
    exact ⟨le_refl _, rfl⟩

lemma check_missed_counts_mono (t : Int) :
    ∀ (live : List LiveVeh) (c : Counts) (am : List String) (vt : VType),
    (check_missed_deadlines t live c am).1.spawnedOf vt = c.spawnedOf vt ∧
    c.missedOf vt ≤ (check_missed_deadlines t live c am).1.missedOf vt := by
  intro live
  induction live with
  | nil => intro c am vt; exact ⟨rfl, le_refl _⟩
  | cons v vs ih =>
    intro c am vt
    obtain ⟨vid, dl, ty⟩ := v
    by_cases h : vid ∈ am
    · rw [cm_cons_mem t vs c am ⟨vid, dl, ty⟩ h]
      exact ih c am vt
    · cases dl with
      | fail =>
        rw [cm_cons_fail t vs c am vid ty h]
        exact ih c am vt
      | empty =>
        rw [cm_cons_empty t vs c am vid ty h]
        exact ih c am vt
      | bad =>
        rw [cm_cons_bad t vs c am vid ty h]
        exact ih c am vt
      | val d =>
        by_cases hdd : t > d
        · cases ty with
          | fail =>
            rw [cm_cons_tyfail t vs c am vid d h hdd]
            exact ih c am vt
          | ok k =>
            rw [cm_cons_count t vs c am vid d k h hdd]
            obtain ⟨g1, g2⟩ := ih (if Counts.inKeys k then c.incMissed k else c) (am ++ [vid]) vt
            constructor
            · rw [g1]
              by_cases hk : Counts.inKeys k
              · rw [if_pos hk, incMissed_spawnedOf_any]
              · rw [if_neg hk]
            · refine le_trans ?_ g2
              by_cases hk : Counts.inKeys k
              · rw [if_pos hk]
                exact incMissed_missedOf_le_any c k vt
              · rw [if_neg hk]
        · rw [cm_cons_notdue t vs c am vid d ty h hdd]
          exact ih c am vt

lemma tickState_counts_mono (method : String) (mg : Nat) (O : Oracle) (step : Nat)
    (s : SimSt) (vt : VType) :
    s.counts.spawnedOf vt ≤ (tickState method mg O step s).counts.spawnedOf vt ∧
    s.counts.missedOf vt ≤ (tickState method mg O step s).counts.missedOf vt := by
  obtain ⟨hc, -, -⟩ := tickState_fields method mg O step s
  rw [hc]
  obtain ⟨g1, g2⟩ := spawn_vehicles_counts_mono O step s.counts s.engine vt
  obtain ⟨k1, k2⟩ := check_missed_counts_mono (step : Int)
    (liveOf O step (spawn_vehicles O step s.counts s.engine).2)
    (spawn_vehicles O step s.counts s.engine).1 s.already_missed vt
  constructor
  · rw [k1]
    exact g1
  · rw [g2]
    exact k2

lemma stateAtFrom_succ (method : String) (mg : Nat) (O : Oracle) (s0 : SimSt) (n : Nat) :
    stateAtFrom method mg O s0 (n + 1) = stateAtFrom method mg O s0 n ∨
    stateAtFrom method mg O s0 (n + 1) =
      tickState method mg O n (stateAtFrom method mg O s0 n) := by
  cases hrun : simRunFrom method mg O s0 n with
  | error s =>
    left
    have h1 := simRunFrom_error_frozen method mg O s0 n s hrun 1
    unfold stateAtFrom
    rw [h1, hrun]
  | ok s =>
    right
    have h1 := simRunFrom_succ_ok method mg O s0 n s hrun
    unfold stateAtFrom tickState
    rw [h1, hrun]

lemma initSt_inv : CountsInv initSt := by
  refine ⟨fun vt => ?_, by simp [initSt], by simp [initSt], by simp [initSt], fun vt => ?_⟩ <;>
    cases vt <;> rfl

lemma stateAtFrom_inv (method : String) (mg : Nat) (O : Oracle) :
    ∀ n, CountsInv (stateAtFrom method mg O initSt n) := by
  intro n
  induction n with
  | zero => exact initSt_inv
  | succ n ih =>
    rcases stateAtFrom_succ method mg O initSt n with h | h
    · rw [h]
      exact ih
    · rw [h]
      exact tickState_inv method mg O n _ ih

lemma stateAtFrom_counts_mono (method : String) (mg : Nat) (O : Oracle) (vt : VType) :
    ∀ n m, n ≤ m →
    (stateAtFrom method mg O initSt n).counts.spawnedOf vt ≤
      (stateAtFrom method mg O initSt m).counts.spawnedOf vt ∧
    (stateAtFrom method mg O initSt n).counts.missedOf vt ≤
      (stateAtFrom method mg O initSt m).counts.missedOf vt := by
  intro n m
  induction m with
  | zero =>
    intro h
    have h0 : n = 0 := Nat.le_zero.mp h
    subst h0
    exact ⟨le_refl _, le_refl _⟩
  | succ m ih =>
    intro h
    by_cases hnm : n ≤ m
    · obtain ⟨a, b⟩ := ih hnm
      rcases stateAtFrom_succ method mg O initSt m with hs | hs
      · rw [hs]
        exact ⟨a, b⟩
      · rw [hs]
        obtain ⟨c1, c2⟩ :=
          tickState_counts_mono method mg O m (stateAtFrom method mg O initSt m) vt
        exact ⟨le_trans a c1, le_trans b c2⟩
    · have heq : n = m + 1 := by omega
      subst heq
      exact ⟨le_refl _, le_refl _⟩

/-- C9: at every point of every run, for every vehicle class, the missed
counter never exceeds the spawned counter; the spawned counter equals the
number of successfully admitted vehicles of that class (incremented exactly
once per admission); the missed counter equals the number of admitted
vehicles of that class recorded in the duplicate-free already-missed set
(at most once per vehicle); and both counters are monotonically
non-decreasing over ticks. -/
theorem counters_invariant (method : String) (mg : Nat) (O : Oracle) (n m : Nat) (vt : VType)
    (hnm : n ≤ m) :
    (stateAtFrom method mg O initSt n).counts.missedOf vt ≤
      (stateAtFrom method mg O initSt n).counts.spawnedOf vt ∧
    (stateAtFrom method mg O initSt n).counts.spawnedOf vt =
      countClass vt (stateAtFrom method mg O initSt n).engine ∧
    (stateAtFrom method mg O initSt n).counts.missedOf vt =
      countClassMissed vt (stateAtFrom method mg O initSt n).already_missed
        (stateAtFrom method mg O initSt n).engine ∧
    (stateAtFrom method mg O initSt n).already_missed.Nodup ∧
    (stateAtFrom method mg O initSt n).counts.spawnedOf vt ≤
      (stateAtFrom method mg O initSt m).counts.spawnedOf vt ∧
    (stateAtFrom method mg O initSt n).counts.missedOf vt ≤
      (stateAtFrom method mg O initSt m).counts.missedOf vt := by
  obtain ⟨h1, h2, h3, h4, h5⟩ := stateAtFrom_inv method mg O n
  obtain ⟨m1, m2⟩ := stateAtFrom_counts_mono method mg O vt n m hnm
  refine ⟨?_, h1 vt, h5 vt, h3, m1, m2⟩
  rw [h1 vt, h5 vt]
  exact countClassMissed_le_countClass vt _ _

theorem counters_invariant_witness :
    (stateAtFrom "edf" 8 oracleBusy initSt 3).counts.missedOf VType.LV ≤
      (stateAtFrom "edf" 8 oracleBusy initSt 3).counts.spawnedOf VType.LV ∧
    (stateAtFrom "edf" 8 oracleBusy initSt 3).counts.spawnedOf VType.LV =
      countClass VType.LV (stateAtFrom "edf" 8 oracleBusy initSt 3).engine ∧
    (stateAtFrom "edf" 8 oracleBusy initSt 3).counts.spawnedOf VType.LV ≤
      (stateAtFrom "edf" 8 oracleBusy initSt 12).counts.spawnedOf VType.LV := by
  obtain ⟨a, b, -, -, d, -⟩ := counters_invariant "edf" 8 oracleBusy 3 12 VType.LV (by omega)
  exact ⟨a, b, d⟩

end RTES
